import Mathlib

/-!
Verification of the similarity engine of the Codebase-Refactor-Detection
repository.  The Python sources are shallowly embedded: lines of source
code become `List Char`, dictionaries become association lists or are
folded with explicit state, fallible operations return `Option`, and the
floating-point similarity ratios become exact rationals.  File names
(Python `str` dictionary keys) are modelled as `List Char` as well.

Layout: all definitions first (namespace `Refactor`), then all theorems.
-/

set_option maxRecDepth 8000

/-- A source line, modelled as its character list. -/
abbrev Line := List Char

/-- A file name / path, modelled as its character list. -/
abbrev FileKey := List Char

namespace Refactor

/-! ### Small generic helpers shared by several components -/

/-- `startsWithCL s p` decides whether `p` is a prefix of `s`
(Python `str.startswith`). -/
def startsWithCL : List Char → List Char → Bool
  | _, [] => true
  | [], _ :: _ => false
  | c :: cs, p :: ps => c = p && startsWithCL cs ps

/-- Characters stripped by Python `str.strip` / `str.lstrip` with no
argument (ASCII whitespace). -/
def isPyWhitespace (c : Char) : Bool :=
  c = ' ' || c = '\t' || c = '\n' || c = '\r' || c = '\x0b' || c = '\x0c'

/-- Python `str.lstrip()`: drop leading whitespace. -/
def lstripCL (s : List Char) : List Char :=
  s.dropWhile isPyWhitespace

/-- Python `str.strip()`: drop leading and trailing whitespace. -/
def stripCL (s : List Char) : List Char :=
  (((lstripCL s).reverse).dropWhile isPyWhitespace).reverse

/-- Python-set insertion, determinised to first-occurrence order: append
the element unless it is already present. -/
def setInsert {α : Type} [DecidableEq α] (l : List α) (x : α) : List α :=
  if x ∈ l then l else l ++ [x]

/-! ### Normalizer — `src/services/Prep/normalizer.py`

The file-reading wrapper (`open`, UTF-8 decoding, the `except` branch) is
I/O and is not embedded; the loop body of `normalize_file_path` is
modelled on the file's list of lines, each line carrying its trailing
newline exactly as Python's file iteration yields it. -/

/-- `is_import` (normalizer.py line 31). -/
def is_import (code : Line) : Bool :=
  startsWithCL (lstripCL code) ['f', 'r', 'o', 'm'] ||
    startsWithCL (lstripCL code) ['i', 'm', 'p', 'o', 'r', 't']

/-- `is_comment` (normalizer.py line 34): leading `#` or leading `\x22\x22\x22`. -/
def is_comment (code : Line) : Bool :=
  startsWithCL (lstripCL code) ['#'] ||
    startsWithCL (lstripCL code) ['\"', '\"', '\"']

/-- `is_multiline_string` (normalizer.py line 37): leading single
quote. -/
def is_multiline_string (code : Line) : Bool :=
  startsWithCL (lstripCL code) ['\'']

/-- `is_decorator` (normalizer.py line 40). -/
def is_decorator (code : Line) : Bool :=
  startsWithCL (lstripCL code) ['@']

/-- `is_empty_line` (normalizer.py line 43). -/
def is_empty_line (code : Line) : Bool :=
  (stripCL code).length = 0

/-- One iteration of the `for line in file` loop of
`normalize_file_path` (normalizer.py lines 12-25).  State:
`(in_multiline_string, original_line_number, code, line_mapping)`. -/
def normalizeStep (st : Bool × Nat × List Line × List Nat) (line : Line) :
    Bool × Nat × List Line × List Nat :=
  let flag := st.1
  let n := st.2.1 + 1
  let code := st.2.2.1
  let mapping := st.2.2.2
  if !is_import line && !is_comment line && !is_decorator line &&
      !is_empty_line line then
    let flag' := if is_multiline_string line then !flag else flag
    if !flag' && !is_multiline_string line then
      (flag', n, code ++ [lstripCL line], mapping ++ [n])
    else
      (flag', n, code, mapping)
  else
    (flag, n, code, mapping)

/-- The loop of `normalize_file_path` over the file's lines, returning
`(code, line_mapping)` (normalizer.py lines 5-29). -/
def normalize_lines (lines : List Line) : List Line × List Nat :=
  let st := lines.foldl normalizeStep (false, 0, [], [])
  (st.2.2.1, st.2.2.2)

/-- Reference description of the normalizer, written from the amended
reading of the spec sentence on docstring discarding: the toggle fires on
lines whose leading non-whitespace begins with a SINGLE quote (so
`\x27\x27\x27`-delimited blocks are discarded, both toggling lines
included); a line whose leading non-whitespace is `#` or `\x22\x22\x22`
is discarded individually without toggling, so the interior of a
`\x22\x22\x22`-delimited block is kept unless another rule discards it;
import/from/decorator/blank lines are discarded; every kept line is
left-stripped and paired with its 1-based original line number. -/
def singleQuoteBlockWalk (flag : Bool) (n : Nat) :
    List Line → List Line × List Nat
  | [] => ([], [])
  | l :: ls =>
    if is_import l || is_comment l || is_decorator l || is_empty_line l then
      singleQuoteBlockWalk flag (n + 1) ls
    else if is_multiline_string l then
      singleQuoteBlockWalk (!flag) (n + 1) ls
    else if flag then
      singleQuoteBlockWalk flag (n + 1) ls
    else
      let r := singleQuoteBlockWalk flag (n + 1) ls
      (lstripCL l :: r.1, (n + 1) :: r.2)

/-- The reference normalizer started with flag off at line number 0. -/
def singleQuoteBlockNormalize (lines : List Line) : List Line × List Nat :=
  singleQuoteBlockWalk false 0 lines

/-- A four-line file whose first and third lines consist of a
triple-double-quote sequence: a `\x22\x22\x22`-delimited docstring whose
interior is the line `doc`. -/
def c3Demo : List Line :=
  [['\"', '\"', '\"', '\n'], ['d', 'o', 'c', '\n'],
   ['\"', '\"', '\"', '\n'], ['x', ' ', '=', ' ', '1', '\n']]

/-! ### Shingler — `src/api/services/LSH/lsh_helpers.py` lines 5-14

The Python `set` of shingles is modelled as a duplicate-free list in
first-insertion order. -/

/-- `generate_shingle_set(code, k=5)`: `None` when `len(code) ≤ k`,
otherwise the set of all length-`k` substrings `code[idx:idx+k]` for
`idx ∈ range(len(code) - k + 1)`. -/
def generate_shingle_set (code : Line) (k : Nat) : Option (List Line) :=
  if k < code.length then
    some (((List.range (code.length - k + 1)).map
      (fun idx => (code.drop idx).take k)).foldl setInsert [])
  else
    none

/-! ### Signature Jaccard — `src/api/services/LSH/lsh_helpers.py` lines 67-73

`matches / len(sig1)` raises `ZeroDivisionError` when both signatures are
empty; that exception is modelled as `none`. -/

/-- `sum(1 for a, b in zip(sig1, sig2) if a == b)`. -/
def countMatches (sig1 sig2 : List Nat) : Nat :=
  (sig1.zip sig2).countP (fun p => p.1 = p.2)

/-- `calculate_jaccard_similarity(sig1, sig2)`.  The integer quotient
`matches / len(sig1)` is the exact rational `mkRat matches len(sig1)`
(equal to the field quotient whenever the denominator is nonzero). -/
def calculate_jaccard_similarity (sig1 sig2 : List Nat) : Option ℚ :=
  if sig1.length ≠ sig2.length then
    some 0
  else if sig1.length = 0 then
    none
  else
    some (mkRat (countMatches sig1 sig2) sig1.length)

/-! ### LSH — `src/api/services/LSH/lsh.py` and `lsh_helpers.py`

The fingerprint id `f"{file_key}_{line_idx}"` is modelled as the pair it
encodes.  The 100 MinHash permutations are drawn in the source from an
unseeded RNG (`random.shuffle`); that nondeterministic input is made an
explicit parameter `hash_functions` here, and `num_hash_functions` is
its length.  Python dictionaries become association lists in insertion
order; the iteration order of Python sets is determinised to
first-insertion order. -/

/-- A fingerprint id: `(file_key, line_idx)`. -/
abbrev Fid := FileKey × Nat

/-- The per-line signature record stored in the `signatures` dict
(lsh.py lines 43-51). -/
structure SigRecord where
  signature : List Nat
  file : FileKey
  line_number : Nat
  original_line : Line
  original_line_number : Nat
  next_signature : Option Fid
  prev_signature : Option Fid
deriving DecidableEq

/-- One entry of the `file_mapping` input: normalized code lines and
their original line numbers. -/
structure FileData where
  code : List Line
  line_mapping : List Nat
deriving DecidableEq

abbrev FileMapping := List (FileKey × FileData)

abbrev SigStore := List (Fid × SigRecord)

/-- Dictionary lookup `signatures[fid]` (`none` models a KeyError). -/
def storeFind (s : SigStore) (fid : Fid) : Option SigRecord :=
  (s.find? (fun e => decide (e.1 = fid))).map (fun e => e.2)

/-- Steps 1-2 of `lsh` (lsh.py lines 6-18): the global shingle set,
determinised to first-occurrence order. -/
def buildShingleList (fm : FileMapping) : List Line :=
  fm.foldl (fun u kv =>
    kv.2.code.foldl (fun u line =>
      match generate_shingle_set line 5 with
      | some s => s.foldl setInsert u
      | none => u) u) []

/-- `shingle_index_map` (lsh.py line 18): position of a shingle in the
vocabulary list. -/
def lookupIdx : List Line → Line → Option Nat
  | [], _ => none
  | t :: ts, s => if t = s then some 0 else (lookupIdx ts s).map (· + 1)

/-- Python `min` over a nonempty list (the `[]` default is never used by
`create_signature`, whose caller guards against empty index lists). -/
def listMin : List Nat → Nat
  | [] => 0
  | x :: xs => xs.foldl min x

/-- `create_signature` (lsh_helpers.py lines 29-39).  `hash_func[idx]`
is modelled with a default of 0; in the pipeline every index is a
vocabulary index and every hash function is a permutation of the
vocabulary, so the default is never consulted. -/
def create_signature (shingle_set : List Line) (simap : Line → Option Nat)
    (hash_functions : List (List Nat)) : List Nat :=
  let shingle_indices := shingle_set.filterMap simap
  if shingle_indices = [] then
    List.replicate hash_functions.length ((hash_functions.headD []).length)
  else
    hash_functions.map (fun hf =>
      listMin (shingle_indices.map (fun idx => hf.getD idx 0)))

/-- The `signature_keys_by_file[file_key]` list built in step 4 (lsh.py
lines 33-41): `(line_idx, fingerprint_id)` for each signed line. -/
def signatureKeys (file_key : FileKey) (code : List Line) :
    List (Nat × Fid) :=
  code.enum.filterMap (fun p =>
    if (generate_shingle_set p.2 5).isSome then
      some (p.1, (file_key, p.1))
    else
      none)

/-- Step 4, first pass (lsh.py lines 30-51): one file's signature
records, with `next_signature`/`prev_signature` still `None`. -/
def buildFileSignatures (simap : Line → Option Nat)
    (hfs : List (List Nat)) (file_key : FileKey) (fd : FileData) :
    SigStore :=
  fd.code.enum.filterMap (fun p =>
    match generate_shingle_set p.2 5 with
    | some s => some ((file_key, p.1),
        { signature := create_signature s simap hfs
          file := file_key
          line_number := p.1
          original_line := p.2
          original_line_number := fd.line_mapping.getD p.1 0
          next_signature := none
          prev_signature := none })
    | none => none)

/-- In-place update `signatures[fid][...] = ...` on the association
list. -/
def storeSet (s : SigStore) (fid : Fid) (f : SigRecord → SigRecord) :
    SigStore :=
  s.map (fun e => if e.1 = fid then (e.1, f e.2) else e)

/-- The body of the linking loop for one index `i` (lsh.py lines
55-64). -/
def linkStep (line_data : List (Nat × Fid)) (st : SigStore) (i : Nat) :
    SigStore :=
  let fid := (line_data.getD i (0, ([], 0))).2
  let st1 := if 0 < i then
      storeSet st fid (fun r =>
        { r with prev_signature := some (line_data.getD (i - 1) (0, ([], 0))).2 })
    else st
  if i < line_data.length - 1 then
    storeSet st1 fid (fun r =>
      { r with next_signature := some (line_data.getD (i + 1) (0, ([], 0))).2 })
  else st1

/-- Step 4, second pass for one file (lsh.py lines 54-64): link
consecutive signed lines. -/
def linkFileSignatures (st : SigStore) (line_data : List (Nat × Fid)) :
    SigStore :=
  (List.range line_data.length).foldl (linkStep line_data) st

/-- The signed lines of a file: those entries of `enumerate(code_lines)`
whose shingle set is not `None`. -/
def signedEnum (code : List Line) : List (Nat × Line) :=
  code.enum.filter (fun p => (generate_shingle_set p.2 5).isSome)

/-- The record stored for the signed line `p` of file `(f, fd)` before
linking (lsh.py lines 43-51). -/
def baseRecord (simap : Line → Option Nat) (hfs : List (List Nat))
    (f : FileKey) (fd : FileData) (p : Nat × Line) : SigRecord :=
  { signature := create_signature ((generate_shingle_set p.2 5).getD [])
      simap hfs
    file := f
    line_number := p.1
    original_line := p.2
    original_line_number := fd.line_mapping.getD p.1 0
    next_signature := none
    prev_signature := none }

/-- The cumulative effect of the linking loop on the record at position
`i` of `line_data`. -/
def linkApply (line_data : List (Nat × Fid)) (i : Nat) (r : SigRecord) :
    SigRecord :=
  let r1 := if 0 < i then
      { r with prev_signature := some (line_data.getD (i - 1) (0, ([], 0))).2 }
    else r
  if i < line_data.length - 1 then
    { r1 with next_signature := some (line_data.getD (i + 1) (0, ([], 0))).2 }
  else r1

/-- Steps 1-4 of `lsh`: the fully linked signature store. -/
def lshSignatures (hfs : List (List Nat)) (fm : FileMapping) : SigStore :=
  let shingle_list := buildShingleList fm
  let simap := lookupIdx shingle_list
  let store1 := fm.foldl
    (fun st kv => st ++ buildFileSignatures simap hfs kv.1 kv.2) []
  fm.foldl (fun st kv => linkFileSignatures st (signatureKeys kv.1 kv.2.code))
    store1

/-- Band buckets, flattened to one association list keyed by
`(band_idx, band)`; the nested-dict layout of the source only changes
the enumeration order of buckets, which is irrelevant because the
candidate set below is a set. -/
abbrev Banding := List ((Nat × List Nat) × List Fid)

/-- `split_vector` (lsh_helpers.py lines 42-45).  `none` models the
`assert` failure on `len % b ≠ 0` and the `range` step-0 `ValueError`
on an empty signature. -/
def split_vector (signature : List Nat) (b : Nat) : Option (List (List Nat)) :=
  if signature.length % b ≠ 0 then
    none
  else
    let sub_size := signature.length / b
    if sub_size = 0 then
      none
    else
      some ((List.range b).map (fun i =>
        (signature.drop (i * sub_size)).take sub_size))

/-- Append a fingerprint id to the bucket of `key`, creating the bucket
if absent (lsh_helpers.py lines 54-62). -/
def bucketAdd (bb : Banding) (key : Nat × List Nat) (fid : Fid) : Banding :=
  if bb.any (fun e => decide (e.1 = key)) then
    bb.map (fun e => if e.1 = key then (e.1, e.2 ++ [fid]) else e)
  else
    bb ++ [(key, [fid])]

/-- Bucket lookup; missing buckets read as empty. -/
def bucketsOf (bb : Banding) (key : Nat × List Nat) : List Fid :=
  ((bb.find? (fun e => decide (e.1 = key))).map (fun e => e.2)).getD []

/-- The loop body of `create_band_buckets` for one signature record
(lsh_helpers.py lines 50-62). -/
def bandStep (num_bands : Nat) (acc : Option Banding)
    (e : Fid × SigRecord) : Option Banding :=
  match acc with
  | none => none
  | some bb =>
    match split_vector e.2.signature num_bands with
    | none => none
    | some bands =>
      some (bands.enum.foldl
        (fun bb2 p => bucketAdd bb2 (p.1, p.2) e.1) bb)

/-- `create_band_buckets` (lsh_helpers.py lines 48-64). -/
def create_band_buckets (signatures : SigStore) (num_bands : Nat) :
    Option Banding :=
  signatures.foldl (bandStep num_bands) (some [])

/-- The inner double loop of step 6 (lsh.py lines 79-82): all ordered
pairs `(fids[i], fids[j])` and `(fids[j], fids[i])` for `i < j`, in
enumeration order. -/
def pairsWith (x : Fid) : List Fid → List (Fid × Fid)
  | [] => []
  | y :: ys => (x, y) :: (y, x) :: pairsWith x ys

def orderedPairs : List Fid → List (Fid × Fid)
  | [] => []
  | x :: xs => pairsWith x xs ++ orderedPairs xs

/-- Step 6 contribution of one bucket: buckets with a single member
contribute nothing (lsh.py line 78). -/
def candidateStep (cands : List (Fid × Fid)) (fids : List Fid) :
    List (Fid × Fid) :=
  if 1 < fids.length then (orderedPairs fids).foldl setInsert cands
  else cands

/-- Step 6 of `lsh` (lines 73-83): the `candidates` set, determinised to
first-insertion order. -/
def findCandidates (banding : Banding) : List (Fid × Fid) :=
  banding.foldl (fun cands e => candidateStep cands e.2) []

/-- The `similiarity_adjacency_list`. -/
abbrev Adj := List (Fid × List Fid)

/-- Dictionary lookup `adj[x]`. -/
def adjFind (adj : Adj) (x : Fid) : Option (List Fid) :=
  (adj.find? (fun e => decide (e.1 = x))).map (fun e => e.2)

/-- `if x not in similiarity_adjacency_list: ... = []` (lsh.py lines
99-103). -/
def adjEnsureKey (adj : Adj) (x : Fid) : Adj :=
  if adj.any (fun e => decide (e.1 = x)) then adj else adj ++ [(x, [])]

/-- `similiarity_adjacency_list[x].append(y)` (lsh.py lines 105-106). -/
def adjAppendNeighbor (adj : Adj) (x y : Fid) : Adj :=
  adj.map (fun e => if e.1 = x then (e.1, e.2 ++ [y]) else e)

/-- The adjacency update performed for one qualifying candidate pair
(lsh.py lines 99-106): ensure both keys exist, then append each id to
the other's list. -/
def adjAddEdge (adj : Adj) (a b : Fid) : Adj :=
  adjAppendNeighbor
    (adjAppendNeighbor (adjEnsureKey (adjEnsureKey adj a) b) a b) b a

/-- Step 7 of `lsh` (lines 85-107).  The `len(candidate_pair) == 2`
test of line 90 is vacuous for a pair.  `none` models a KeyError on the
signature lookups or the ZeroDivisionError inside the similarity. -/
def adjStep (signatures : SigStore) (threshold : ℚ) (acc : Option Adj)
    (p : Fid × Fid) : Option Adj :=
  match acc with
  | none => none
  | some adj =>
    match storeFind signatures p.1, storeFind signatures p.2 with
    | some r1, some r2 =>
      match calculate_jaccard_similarity r1.signature r2.signature with
      | some similarity =>
        if threshold < similarity then
          some (adjAddEdge adj p.1 p.2)
        else
          some adj
      | none => none
    | _, _ => none

def buildAdjacency (signatures : SigStore) (threshold : ℚ)
    (cands : List (Fid × Fid)) : Option Adj :=
  cands.foldl (adjStep signatures threshold) (some [])

/-- Whether the signature's band `key.1` equals `key.2`, i.e. whether
the owner of this signature lands in bucket `key`. -/
def inBand (b : Nat) (sig : List Nat) (key : Nat × List Nat) : Bool :=
  match split_vector sig b with
  | some bands => decide (bands.get? key.1 = some key.2)
  | none => false

/-- Whether `x` and `y` land in at least one common band bucket. -/
def sharesBucketB (bb : Banding) (x y : Fid) : Bool :=
  bb.any (fun e => decide (x ∈ e.2) && decide (y ∈ e.2))

/-- Whether the candidate pair `p` passes the similarity gate of step 7
(`similarity > similiarity_threshold`, strictly). -/
def qualifiedPair (signatures : SigStore) (threshold : ℚ)
    (p : Fid × Fid) : Bool :=
  match storeFind signatures p.1, storeFind signatures p.2 with
  | some r1, some r2 =>
    match calculate_jaccard_similarity r1.signature r2.signature with
    | some q => decide (threshold < q)
    | none => false
  | _, _ => false

/-- A placeholder record (used only as a `getD` default in concrete
witnesses). -/
def dummyRecord : SigRecord :=
  { signature := [], file := [], line_number := 0, original_line := [],
    original_line_number := 0, next_signature := none,
    prev_signature := none }

/-- Steps 1-5 of `lsh` followed by `create_band_buckets(signatures, 10)`
(lsh.py line 69). -/
def lshBanding (hfs : List (List Nat)) (fm : FileMapping) : Option Banding :=
  create_band_buckets (lshSignatures hfs fm) 10

/-! ### Concrete inputs used in witnesses and counterexamples -/

/-- A six-character line (signed: length > 5). -/
def demoLineA : Line := ['a', 'b', 'c', 'd', 'e', 'f']

/-- A second six-character line differing in the last character. -/
def demoLineB : Line := ['a', 'b', 'c', 'd', 'e', 'g']

/-- One file with two signed lines. -/
def c8Fm : FileMapping :=
  [(['a'], { code := [demoLineA, demoLineB], line_mapping := [1, 2] })]

def c8Hfs : List (List Nat) := [[0, 1, 2]]

def c8Store : SigStore := lshSignatures c8Hfs c8Fm

def c8rx : SigRecord := (storeFind c8Store (['a'], 0)).getD dummyRecord

def c8ry : SigRecord := (storeFind c8Store (['a'], 1)).getD dummyRecord

/-- Two one-line files whose signatures agree in exactly 5 of 10
components under `c7Hfs`, giving similarity exactly 1/2. -/
def c7Fm : FileMapping :=
  [(['a'], { code := [demoLineA], line_mapping := [1] }),
   (['b'], { code := [demoLineB], line_mapping := [1] })]

def c7Hfs : List (List Nat) :=
  List.replicate 5 [0, 1, 2] ++ List.replicate 5 [2, 0, 1]

/-- Two identical one-line files: similarity 1, shared buckets. -/
def c4Fm : FileMapping :=
  [(['a'], { code := [demoLineA], line_mapping := [1] }),
   (['b'], { code := [demoLineA], line_mapping := [1] })]

def c4Hfs : List (List Nat) := List.replicate 10 [0, 1]

/-- The whole of `lsh(file_mapping, candidate_threshold)` (lsh.py lines
5-109), returning the signature store and the candidate adjacency
map. -/
def lsh (hfs : List (List Nat)) (fm : FileMapping)
    (candidate_threshold : ℚ) : Option (SigStore × Adj) :=
  let signatures := lshSignatures hfs fm
  match create_band_buckets signatures 10 with
  | none => none
  | some banding =>
    match buildAdjacency signatures candidate_threshold
        (findCandidates banding) with
    | some adj => some (signatures, adj)
    | none => none

/-- Fingerprint id of the only signed line of demo file `a`. -/
def fidA : Fid := (['a'], 0)

/-- Fingerprint id of the only signed line of demo file `b`. -/
def fidB : Fid := (['b'], 0)

def c7Sigs : SigStore := lshSignatures c7Hfs c7Fm

def c7B : Option Banding := lshBanding c7Hfs c7Fm

/-- The c7 demo run at candidate threshold exactly 1/2. -/
def c7Run : Option (SigStore × Adj) := lsh c7Hfs c7Fm (mkRat 1 2)

def c7Adj : Adj := (c7Run.map Prod.snd).getD []

/-- The Jaccard similarity the candidate gate computes for the demo
pair. -/
def c7SimAB : Option ℚ :=
  match storeFind c7Sigs fidA, storeFind c7Sigs fidB with
  | some r1, some r2 => calculate_jaccard_similarity r1.signature r2.signature
  | _, _ => none

def c4Sigs : SigStore := lshSignatures c4Hfs c4Fm

def c4B : Option Banding := lshBanding c4Hfs c4Fm

/-- The c4 demo run at candidate threshold 1/2 (similarity is 1). -/
def c4Run : Option (SigStore × Adj) := lsh c4Hfs c4Fm (mkRat 1 2)

def c4Adj : Adj := (c4Run.map Prod.snd).getD []

/-! ### Region expansion —
`src/api/services/Similiarity/similiar_region_helpers.py`

The three `while` loops are modelled with an explicit fuel parameter:
`none` stands for a Python exception (KeyError / ZeroDivisionError)
inside the loop or for the loop still running after `fuel` iterations;
`some` is clean loop exit. -/

/-- The region dictionary returned by `expand_similiarity_region`
(lines 102-110).  `total_lines` is computed over the integers. -/
structure Region where
  file1 : FileKey
  file2 : FileKey
  file1_start : Nat
  file2_start : Nat
  file1_end : Nat
  file2_end : Nat
  total_lines : Int
deriving DecidableEq

/-- The upward loop (lines 24-44): while both `prev_signature`s exist
and the previous records' similarity is not below the threshold, step
both keys to their `prev_signature`; return the pair where the loop
stopped. -/
def growUp (signatures : SigStore) (t : ℚ) :
    Nat → Fid × Fid → Option (Fid × Fid)
  | 0, _ => none
  | fuel + 1, (k1, k2) =>
    match storeFind signatures k1, storeFind signatures k2 with
    | some r1, some r2 =>
      match r1.prev_signature, r2.prev_signature with
      | some p1, some p2 =>
        match storeFind signatures p1, storeFind signatures p2 with
        | some rp1, some rp2 =>
          match calculate_jaccard_similarity rp1.signature rp2.signature with
          | some sim =>
            if sim < t then some (k1, k2)
            else growUp signatures t fuel (p1, p2)
          | none => none
        | _, _ => none
      | _, _ => some (k1, k2)
    | _, _ => none

/-- The collection loop (lines 46-55): walk `next` links from the
upward endpoints, appending both keys, until the original seed pair is
reached or a `next` link is missing. -/
def collectKeys (signatures : SigStore) (key1 key2 : Fid) :
    Nat → Option Fid → Option Fid → List Fid → List Fid →
    Option (List Fid × List Fid)
  | 0, _, _, _, _ => none
  | fuel + 1, some t1, some t2, acc1, acc2 =>
    if t1 = key1 ∧ t2 = key2 then
      some (acc1 ++ [t1], acc2 ++ [t2])
    else
      match storeFind signatures t1, storeFind signatures t2 with
      | some r1, some r2 =>
        collectKeys signatures key1 key2 fuel
          r1.next_signature r2.next_signature (acc1 ++ [t1]) (acc2 ++ [t2])
      | _, _ => none
  | _ + 1, _, _, acc1, acc2 => some (acc1, acc2)

/-- The downward loop (lines 66-90): symmetric to the upward loop along
`next` links, also appending each newly reached pair of keys to the
region-key lists. -/
def growDown (signatures : SigStore) (t : ℚ) :
    Nat → Fid × Fid → List Fid → List Fid →
    Option (Fid × Fid × List Fid × List Fid)
  | 0, _, _, _ => none
  | fuel + 1, (k1, k2), acc1, acc2 =>
    match storeFind signatures k1, storeFind signatures k2 with
    | some r1, some r2 =>
      match r1.next_signature, r2.next_signature with
      | some n1, some n2 =>
        match storeFind signatures n1, storeFind signatures n2 with
        | some rn1, some rn2 =>
          match calculate_jaccard_similarity rn1.signature rn2.signature with
          | some sim =>
            if sim < t then some (k1, k2, acc1, acc2)
            else growDown signatures t fuel (n1, n2)
              (acc1 ++ [n1]) (acc2 ++ [n2])
          | none => none
        | _, _ => none
      | _, _ => some (k1, k2, acc1, acc2)
    | _, _ => none

/-- `expand_similiarity_region(signatures, key1, key2, threshold,
visited)` (lines 5-112).  Returns `none` for an exception or exhausted
fuel, `some (none, visited)` for the below-threshold early return, and
`some (some region, visited')` on success, `visited'` extended by the
Cartesian product of the traversed keys in both orders (lines
96-99). -/
def expand_similiarity_region (signatures : SigStore) (key1 key2 : Fid)
    (threshold : ℚ) (visited : List (Fid × Fid)) (fuel : Nat) :
    Option (Option Region × List (Fid × Fid)) :=
  match storeFind signatures key1, storeFind signatures key2 with
  | some rk1, some rk2 =>
    match calculate_jaccard_similarity rk1.signature rk2.signature with
    | some similiarity =>
      if similiarity < threshold then some (none, visited)
      else
        match growUp signatures threshold fuel (key1, key2) with
        | some (start_key1, start_key2) =>
          match collectKeys signatures key1 key2 fuel (some start_key1)
              (some start_key2) [] [] with
          | some (rk_file1, rk_file2) =>
            match storeFind signatures start_key1,
                storeFind signatures start_key2 with
            | some rs1, some rs2 =>
              match growDown signatures threshold fuel (key1, key2)
                  rk_file1 rk_file2 with
              | some (end_key1, end_key2, rkf1, rkf2) =>
                match storeFind signatures end_key1,
                    storeFind signatures end_key2 with
                | some re1, some re2 =>
                  let visited2 := rkf1.foldl (fun v kf1 =>
                    rkf2.foldl (fun v kf2 =>
                      setInsert (setInsert v (kf1, kf2)) (kf2, kf1)) v)
                    visited
                  some (some
                    { file1 := rk1.file
                      file2 := rk2.file
                      file1_start := rs1.original_line_number
                      file2_start := rs2.original_line_number
                      file1_end := re1.original_line_number
                      file2_end := re2.original_line_number
                      total_lines :=
                        max ((re1.original_line_number : Int) -
                            (rs1.original_line_number : Int) + 1)
                          ((re2.original_line_number : Int) -
                            (rs2.original_line_number : Int) + 1) },
                    visited2)
                | _, _ => none
              | none => none
            | _, _ => none
          | none => none
        | none => none
    | none => none
  | _, _ => none

/-! ### Ranker — `src/api/services/Similiarity/find_similiar_regions.py`

`heapq` heap entries are the tuples
`(-total_lines, (file1, file2, file1_start, file1_end, file2_start,
file2_end))`, ordered lexicographically (Python tuple `<`).  The heap
is modelled as a list kept sorted ascending under that order:
`heappush` is ordered insertion and `heappop` takes the head, which
matches the observable pop sequence of a binary min-heap.  `none`
models an uncaught exception. -/

abbrev HeapEntry := Int × FileKey × FileKey × Nat × Nat × Nat × Nat

/-- Python string `<` on file keys (lexicographic by code point). -/
def strLtB : List Char → List Char → Bool
  | [], [] => false
  | [], _ :: _ => true
  | _ :: _, [] => false
  | a :: as, b :: bs =>
    if a.val < b.val then true
    else if b.val < a.val then false
    else strLtB as bs

/-- Python tuple `<` on heap entries. -/
def heapEntryLtB (x y : HeapEntry) : Bool :=
  if x.1 < y.1 then true else if y.1 < x.1 then false
  else if strLtB x.2.1 y.2.1 then true
  else if strLtB y.2.1 x.2.1 then false
  else if strLtB x.2.2.1 y.2.2.1 then true
  else if strLtB y.2.2.1 x.2.2.1 then false
  else if x.2.2.2.1 < y.2.2.2.1 then true
  else if y.2.2.2.1 < x.2.2.2.1 then false
  else if x.2.2.2.2.1 < y.2.2.2.2.1 then true
  else if y.2.2.2.2.1 < x.2.2.2.2.1 then false
  else if x.2.2.2.2.2.1 < y.2.2.2.2.2.1 then true
  else if y.2.2.2.2.2.1 < x.2.2.2.2.2.1 then false
  else x.2.2.2.2.2.2 < y.2.2.2.2.2.2

/-- `heapq.heappush`: ordered insertion into the sorted-list heap. -/
def heappush : List HeapEntry → HeapEntry → List HeapEntry
  | [], x => [x]
  | y :: ys, x => if heapEntryLtB y x then y :: heappush ys x else x :: y :: ys

/-- `heapq.heappop`: `none` models the `IndexError` on an empty heap. -/
def heappop : List HeapEntry → Option (HeapEntry × List HeapEntry)
  | [] => none
  | x :: xs => some (x, xs)

/-- The post-processing loop of `find_similiar_regions` (lines 35-39):
`while top and top[0] < region_threshold and max_heap`.  A popped tuple
is always truthy, so the loop appends the current `top` and pops the
next one while `top[0] < region_threshold` and the heap is nonempty;
the `top` held when the condition fails is dropped. -/
def drainLoop (region_threshold : Int) : HeapEntry → List HeapEntry →
    List HeapEntry
  | _, [] => []
  | top, t :: rest =>
    if top.1 < region_threshold then top :: drainLoop region_threshold t rest
    else []

/-- The heap entry pushed for one region (line 32). -/
def regionEntry (r : Region) : HeapEntry :=
  (-r.total_lines, r.file1, r.file2, r.file1_start, r.file1_end,
    r.file2_start, r.file2_end)

/-- Two files sharing an identical two-line block: `lsh` produces one
expandable cross-file region of length 2. -/
def c1Fm : FileMapping :=
  [(['a'], { code := [demoLineA, demoLineB], line_mapping := [1, 2] }),
   (['b'], { code := [demoLineA, demoLineB], line_mapping := [1, 2] })]

def c1Hfs : List (List Nat) := List.replicate 10 [0, 1, 2, 3]

def c1Out : SigStore × Adj := (lsh c1Hfs c1Fm (mkRat 1 2)).getD ([], [])

/-- A placeholder region (used only as a `getD` default in concrete
witnesses). -/
def dummyRegion : Region :=
  { file1 := [], file2 := [], file1_start := 0, file2_start := 0,
    file1_end := 0, file2_end := 0, total_lines := 0 }

/-- The concrete expansion of the cross-file seed `(a_0, b_0)` in the
two-file store of `c1Fm`. -/
def c10Out : Option (Option Region × List (Fid × Fid)) :=
  expand_similiarity_region (lshSignatures c1Hfs c1Fm) (['a'], 0)
    (['b'], 0) (mkRat 4 5) [] 100

def c10Region : Region := ((c10Out.getD (none, [])).1).getD dummyRegion

def c10Visited : List (Fid × Fid) := (c10Out.getD (none, [])).2

/-- `find_similiar_regions(signatures, adj_list, region_threshold,
threshold=.80)` (lines 6-41).  The batch-progress printing does not
affect the result and is omitted. -/
def find_similiar_regions (signatures : SigStore) (adj_list : Adj)
    (region_threshold : Int) (threshold : ℚ) (fuel : Nat) :
    Option (List HeapEntry) :=
  let looped := adj_list.foldl (fun acc kv =>
    match acc with
    | none => none
    | some (visited, heap) =>
      match storeFind signatures kv.1 with
      | none => none
      | some rk =>
        kv.2.foldl (fun acc2 similiar_key =>
          match acc2 with
          | none => none
          | some (visited, heap) =>
            match storeFind signatures similiar_key with
            | none => none
            | some rs =>
              if (kv.1, similiar_key) ∉ visited ∧
                  (similiar_key, kv.1) ∉ visited ∧ rk.file ≠ rs.file then
                match expand_similiarity_region signatures kv.1 similiar_key
                    threshold visited fuel with
                | none => none
                | some (none, visited2) => some (visited2, heap)
                | some (some region, visited2) =>
                  some (visited2, heappush heap (regionEntry region))
              else some (visited, heap))
          (some (visited, heap)))
    (some (([] : List (Fid × Fid)), ([] : List HeapEntry)))
  match looped with
  | none => none
  | some (_, max_heap) =>
    match heappop max_heap with
    | none => none
    | some (top, rest) => some (drainLoop region_threshold top rest)

end Refactor

open Refactor

/-! ## Helper theorems -/

theorem mem_setInsert {α : Type} [DecidableEq α] {l : List α} {x y : α} :
    y ∈ setInsert l x ↔ y ∈ l ∨ y = x := by
  unfold setInsert
  by_cases h : x ∈ l
  · simp only [if_pos h]
    constructor
    · exact Or.inl
    · rintro (hy | rfl) <;> assumption
  · simp [if_neg h]

theorem nodup_setInsert {α : Type} [DecidableEq α] {l : List α} (x : α)
    (h : l.Nodup) : (setInsert l x).Nodup := by
  unfold setInsert
  by_cases hx : x ∈ l
  · simpa [hx] using h
  · simp only [if_neg hx]
    exact List.Nodup.append h (List.nodup_singleton x)
      (fun a ha hax => hx ((List.mem_singleton.mp hax) ▸ ha))

theorem length_setInsert_le {α : Type} [DecidableEq α] (l : List α) (x : α) :
    (setInsert l x).length ≤ l.length + 1 := by
  unfold setInsert
  by_cases hx : x ∈ l <;> simp [hx]

theorem le_length_setInsert {α : Type} [DecidableEq α] (l : List α) (x : α) :
    l.length ≤ (setInsert l x).length := by
  unfold setInsert
  by_cases hx : x ∈ l <;> simp [hx]

theorem nodup_foldl_setInsert {α : Type} [DecidableEq α] (ws : List α) :
    ∀ l : List α, l.Nodup → (ws.foldl setInsert l).Nodup := by
  induction ws with
  | nil => intro l h; simpa using h
  | cons w ws ih => intro l h; exact ih _ (nodup_setInsert w h)

theorem length_foldl_setInsert_le {α : Type} [DecidableEq α] (ws : List α) :
    ∀ l : List α, (ws.foldl setInsert l).length ≤ l.length + ws.length := by
  induction ws with
  | nil => intro l; simp
  | cons w ws ih =>
    intro l
    calc ((w :: ws).foldl setInsert l).length
        ≤ (setInsert l w).length + ws.length := ih _
      _ ≤ l.length + 1 + ws.length := by
          exact Nat.add_le_add_right (length_setInsert_le l w) _
      _ = l.length + (w :: ws).length := by simp; omega

theorem le_length_foldl_setInsert {α : Type} [DecidableEq α] (ws : List α) :
    ∀ l : List α, l.length ≤ (ws.foldl setInsert l).length := by
  induction ws with
  | nil => intro l; simp
  | cons w ws ih =>
    intro l
    exact le_trans (le_length_setInsert l w) (ih (setInsert l w))

theorem mem_foldl_setInsert {α : Type} [DecidableEq α] (ws : List α) :
    ∀ (l : List α) (y : α), y ∈ ws.foldl setInsert l ↔ y ∈ l ∨ y ∈ ws := by
  induction ws with
  | nil => intro l y; simp
  | cons w ws ih =>
    intro l y
    rw [List.foldl_cons, ih, mem_setInsert]
    simp only [List.mem_cons]
    tauto

theorem normalize_foldl_eq_walk (ls : List Line) :
    ∀ (flag : Bool) (n : Nat) (code : List Line) (mapping : List Nat),
      (ls.foldl normalizeStep (flag, n, code, mapping)).2.2 =
        (code ++ (singleQuoteBlockWalk flag n ls).1,
         mapping ++ (singleQuoteBlockWalk flag n ls).2) := by
  induction ls with
  | nil => intro flag n code mapping; simp [singleQuoteBlockWalk]
  | cons l ls ih =>
    intro flag n code mapping
    simp only [List.foldl_cons]
    by_cases h1 : is_import l <;>
      by_cases h2 : is_comment l <;>
        by_cases h3 : is_decorator l <;>
          by_cases h4 : is_empty_line l <;>
            by_cases h5 : is_multiline_string l <;>
              cases flag <;>
                simp [normalizeStep, singleQuoteBlockWalk, h1, h2, h3, h4, h5,
                  ih]

theorem countMatches_self (a : List Nat) : countMatches a a = a.length := by
  induction a with
  | nil => rfl
  | cons x xs ih => simp [countMatches, List.countP_cons] at ih ⊢; omega

theorem countMatches_le_length (a b : List Nat) :
    countMatches a b ≤ a.length := by
  unfold countMatches
  calc (a.zip b).countP (fun p => p.1 = p.2) ≤ (a.zip b).length :=
        List.countP_le_length _
    _ ≤ a.length := by rw [List.length_zip]; omega

/-! ### Association-list lemmas -/

theorem find_of_nodup_keys {α β : Type} [DecidableEq β] (L : List α)
    (keyfn : α → β) (hnd : (L.map keyfn).Nodup) (j : Nat)
    (hj : j < L.length) :
    L.find? (fun e => decide (keyfn e = keyfn (L.get ⟨j, hj⟩))) =
      some (L.get ⟨j, hj⟩) := by
  induction L generalizing j with
  | nil => exact absurd hj (by simp)
  | cons a L ih =>
    rcases j with _ | j
    · simp
    · have hjL : j < L.length := by simpa using hj
      have hget : (a :: L).get ⟨j + 1, hj⟩ = L.get ⟨j, hjL⟩ := rfl
      rw [hget]
      have hmem : keyfn (L.get ⟨j, hjL⟩) ∈ L.map keyfn :=
        List.mem_map_of_mem keyfn (L.get_mem j hjL)
      have hne : ¬(keyfn a = keyfn (L.get ⟨j, hjL⟩)) := by
        intro h
        rw [List.map_cons] at hnd
        exact (List.nodup_cons.mp hnd).1 (h ▸ hmem)
      rw [List.find?_cons_of_neg L (by simpa using hne)]
      exact ih (List.Nodup.of_cons (by simpa using hnd)) j hjL

theorem storeFind_get (S : SigStore) (hnd : (S.map Prod.fst).Nodup)
    (j : Nat) (hj : j < S.length) :
    storeFind S (S.get ⟨j, hj⟩).1 = some (S.get ⟨j, hj⟩).2 := by
  unfold storeFind
  rw [find_of_nodup_keys S Prod.fst hnd j hj]
  rfl

theorem storeFind_eq_some_mem {S : SigStore} {k : Fid} {r : SigRecord}
    (h : storeFind S k = some r) : (k, r) ∈ S := by
  unfold storeFind at h
  rcases Option.map_eq_some'.mp h with ⟨e, he, h2⟩
  have h1 : e.1 = k := by simpa using List.find?_some he
  have : e = (k, r) := by
    cases e; simp at h1 h2; simp [h1, h2]
  exact this ▸ List.mem_of_find?_eq_some he

theorem storeSet_map_fst (s : SigStore) (k : Fid) (f : SigRecord → SigRecord) :
    (storeSet s k f).map Prod.fst = s.map Prod.fst := by
  unfold storeSet
  rw [List.map_map]
  apply List.map_congr_left
  intro e _
  by_cases he : e.1 = k <;> simp [he]

theorem storeFind_storeSet (s : SigStore) (k k' : Fid)
    (f : SigRecord → SigRecord) :
    storeFind (storeSet s k f) k' =
      if k' = k then (storeFind s k').map f else storeFind s k' := by
  unfold storeFind storeSet
  rw [List.find?_map]
  have hpred : ((fun e : Fid × SigRecord => decide (e.1 = k')) ∘
      (fun e : Fid × SigRecord => if e.1 = k then (e.1, f e.2) else e)) =
      fun e : Fid × SigRecord => decide (e.1 = k') := by
    funext e
    by_cases he : e.1 = k <;> simp [he]
  rw [hpred]
  rcases hf : s.find? (fun e => decide (e.1 = k')) with _ | e
  · rw [hf]
    by_cases hk : k' = k <;> simp [hk]
  · rw [hf]
    have h1 : e.1 = k' := by simpa using List.find?_some hf
    by_cases hk : k' = k
    · simp [hk, h1]
    · have h2 : e.1 ≠ k := fun hek => hk (h1.symm.trans hek)
      simp [hk, h1, h2]

/-! ### Structure of the signature store -/

theorem filterMap_if_eq_filter_map {α β : Type} (c : α → Bool) (g : α → β)
    (l : List α) :
    l.filterMap (fun p => if c p then some (g p) else none) =
      (l.filter c).map g := by
  induction l with
  | nil => rfl
  | cons a l ih =>
    by_cases h : c a <;>
      simp [List.filterMap_cons, List.filter_cons, h, ih]

theorem signatureKeys_eq (f : FileKey) (code : List Line) :
    signatureKeys f code =
      (signedEnum code).map (fun p => (p.1, (f, p.1))) := by
  unfold signatureKeys signedEnum
  exact filterMap_if_eq_filter_map _ _ _

theorem buildFileSignatures_eq (simap : Line → Option Nat)
    (hfs : List (List Nat)) (f : FileKey) (fd : FileData) :
    buildFileSignatures simap hfs f fd =
      (signedEnum fd.code).map
        (fun p => ((f, p.1), baseRecord simap hfs f fd p)) := by
  unfold buildFileSignatures signedEnum
  generalize fd.code.enum = l
  induction l with
  | nil => rfl
  | cons p l ih =>
    rcases hp : generate_shingle_set p.2 5 with _ | s
    · rw [List.filterMap_cons, List.filter_cons, ih]
      simp [hp]
    · have hbase : baseRecord simap hfs f fd p =
          { signature := create_signature s simap hfs
            file := f
            line_number := p.1
            original_line := p.2
            original_line_number := fd.line_mapping.getD p.1 0
            next_signature := none
            prev_signature := none } := by
        simp [baseRecord, hp]
      rw [List.filterMap_cons, List.filter_cons, ih]
      simp only [hp, Option.isSome_some, if_true, List.map_cons, hbase]

theorem signedEnum_fst_pairwise (code : List Line) :
    ((signedEnum code).map Prod.fst).Pairwise (· < ·) := by
  have hsub : ((signedEnum code).map Prod.fst).Sublist
      (code.enum.map Prod.fst) := (List.filter_sublist _).map _
  rw [List.enum_map_fst] at hsub
  exact List.Pairwise.sublist hsub (List.pairwise_lt_range _)

theorem signedEnum_fst_nodup (code : List Line) :
    ((signedEnum code).map Prod.fst).Nodup :=
  (signedEnum_fst_pairwise code).imp (fun h => Nat.ne_of_lt h)

theorem mem_signedEnum {code : List Line} {p : Nat × Line} :
    p ∈ signedEnum code ↔
      code.get? p.1 = some p.2 ∧ (generate_shingle_set p.2 5).isSome := by
  unfold signedEnum
  rw [List.mem_filter, List.mem_enum_iff_get?]

theorem foldl_append_join {α β : Type} (g : β → List α) (l : List β) :
    ∀ init : List α, l.foldl (fun st kv => st ++ g kv) init =
      init ++ (l.map g).flatten := by
  induction l with
  | nil => intro init; simp
  | cons kv l ih => intro init; simp [ih, List.append_assoc]

theorem storeFind_append (l1 l2 : SigStore) (k : Fid) :
    storeFind (l1 ++ l2) k = (storeFind l1 k).or (storeFind l2 k) := by
  unfold storeFind
  rw [List.find?_append]
  rcases hf : List.find? (fun e => decide (e.1 = k)) l1 with _ | e <;>
    rw [hf] <;> simp

theorem storeFind_block_ne (simap : Line → Option Nat)
    (hfs : List (List Nat)) (g : FileKey) (gd : FileData) (f : FileKey)
    (i : Nat) (hgf : g ≠ f) :
    storeFind (buildFileSignatures simap hfs g gd) (f, i) = none := by
  rw [buildFileSignatures_eq]
  unfold storeFind
  rw [List.find?_eq_none.mpr]
  · rfl
  · intro e he
    rcases List.mem_map.mp he with ⟨p, _, rfl⟩
    simp [hgf]

theorem storeFind_join_none (simap : Line → Option Nat)
    (hfs : List (List Nat)) (fm : FileMapping) (f : FileKey) (i : Nat)
    (hf : f ∉ fm.map Prod.fst) :
    storeFind
      ((fm.map (fun kv => buildFileSignatures simap hfs kv.1 kv.2)).flatten)
      (f, i) = none := by
  induction fm with
  | nil => rfl
  | cons kv fm ih =>
    rw [List.map_cons] at hf
    simp only [List.map_cons, List.flatten_cons]
    rw [storeFind_append]
    have h1 : kv.1 ≠ f := by
      intro h
      exact hf (h ▸ List.mem_cons_self _ _)
    rw [storeFind_block_ne simap hfs kv.1 kv.2 f i h1, Option.none_or]
    exact ih (fun h => hf (List.mem_cons_of_mem _ h))

theorem storeFind_blocks (simap : Line → Option Nat)
    (hfs : List (List Nat)) (fm : FileMapping)
    (hnd : (fm.map Prod.fst).Nodup) (f : FileKey) (fd : FileData)
    (hmem : (f, fd) ∈ fm) (i : Nat) :
    storeFind
      ((fm.map (fun kv => buildFileSignatures simap hfs kv.1 kv.2)).flatten)
      (f, i) = storeFind (buildFileSignatures simap hfs f fd) (f, i) := by
  induction fm with
  | nil => exact absurd hmem (by simp)
  | cons kv fm ih =>
    rw [List.map_cons] at hnd
    simp only [List.map_cons, List.flatten_cons]
    rw [storeFind_append]
    rcases List.mem_cons.mp hmem with heq | htail
    · subst heq
      have hf2 : f ∉ fm.map Prod.fst := (List.nodup_cons.mp hnd).1
      rw [storeFind_join_none simap hfs fm f i hf2]
      exact Option.or_none
    · have h1 : kv.1 ≠ f := by
        intro h
        have hin : f ∈ fm.map Prod.fst :=
          List.mem_map.mpr ⟨(f, fd), htail, rfl⟩
        exact (List.nodup_cons.mp hnd).1 (h ▸ hin)
      rw [storeFind_block_ne simap hfs kv.1 kv.2 f i h1, Option.none_or]
      exact ih (List.nodup_cons.mp hnd).2 htail

/-! ### Effect of the linking pass -/

theorem linkApply_file (ld : List (Nat × Fid)) (i : Nat) (r : SigRecord) :
    (linkApply ld i r).file = r.file := by
  unfold linkApply
  by_cases h1 : 0 < i <;> by_cases h2 : i < ld.length - 1 <;>
    simp [h1, h2]

theorem linkApply_line_number (ld : List (Nat × Fid)) (i : Nat)
    (r : SigRecord) : (linkApply ld i r).line_number = r.line_number := by
  unfold linkApply
  by_cases h1 : 0 < i <;> by_cases h2 : i < ld.length - 1 <;>
    simp [h1, h2]

theorem linkApply_signature (ld : List (Nat × Fid)) (i : Nat)
    (r : SigRecord) : (linkApply ld i r).signature = r.signature := by
  unfold linkApply
  by_cases h1 : 0 < i <;> by_cases h2 : i < ld.length - 1 <;>
    simp [h1, h2]

theorem linkApply_original_line_number (ld : List (Nat × Fid)) (i : Nat)
    (r : SigRecord) :
    (linkApply ld i r).original_line_number = r.original_line_number := by
  unfold linkApply
  by_cases h1 : 0 < i <;> by_cases h2 : i < ld.length - 1 <;>
    simp [h1, h2]

theorem linkApply_prev (ld : List (Nat × Fid)) (i : Nat) (r : SigRecord) :
    (linkApply ld i r).prev_signature =
      if 0 < i then some (ld.getD (i - 1) (0, ([], 0))).2
      else r.prev_signature := by
  unfold linkApply
  by_cases h1 : 0 < i <;> by_cases h2 : i < ld.length - 1 <;>
    simp [h1, h2]

theorem linkApply_next (ld : List (Nat × Fid)) (i : Nat) (r : SigRecord) :
    (linkApply ld i r).next_signature =
      if i < ld.length - 1 then some (ld.getD (i + 1) (0, ([], 0))).2
      else r.next_signature := by
  unfold linkApply
  by_cases h1 : 0 < i <;> by_cases h2 : i < ld.length - 1 <;>
    simp [h1, h2]

theorem option_map_congr {α β : Type} {f g : α → β} (h : ∀ a, f a = g a)
    (o : Option α) : o.map f = o.map g := by
  cases o <;> simp [h]

theorem option_map_id_eq {α : Type} (o : Option α) :
    o.map (fun a => a) = o := by
  cases o <;> rfl

theorem storeFind_linkStep (ld : List (Nat × Fid)) (st : SigStore)
    (i : Nat) (k : Fid) :
    storeFind (linkStep ld st i) k =
      if k = (ld.getD i (0, ([], 0))).2 then
        (storeFind st k).map (linkApply ld i)
      else storeFind st k := by
  unfold linkStep linkApply
  by_cases h1 : 0 < i <;> by_cases h2 : i < ld.length - 1 <;>
    by_cases hk : k = (ld.getD i (0, ([], 0))).2 <;>
      simp only [h1, h2, hk, if_true, if_false, storeFind_storeSet,
        Option.map_map] <;>
      first
        | rfl
        | exact (option_map_congr (fun r => rfl) _).symm
        | exact option_map_congr (fun r => rfl) _
        | exact (option_map_id_eq _).symm

theorem map_snd_get_ne {α β : Type} (l : List (α × β))
    (h : (l.map Prod.snd).Nodup) {i j : Nat} (hi : i < l.length)
    (hj : j < l.length) (hij : i ≠ j) :
    (l.get ⟨i, hi⟩).2 ≠ (l.get ⟨j, hj⟩).2 := by
  intro he
  have h1 : (l.map Prod.snd).get ⟨i, by simpa using hi⟩ =
      (l.map Prod.snd).get ⟨j, by simpa using hj⟩ := by
    rw [List.get_map, List.get_map]
    exact he
  have h2 := (List.Nodup.get_inj_iff h).mp h1
  exact hij (by simpa using h2)

theorem linkFold_untouched (ld : List (Nat × Fid)) (k : Fid) :
    ∀ (idxs : List Nat) (st : SigStore),
      (∀ i ∈ idxs, (ld.getD i (0, ([], 0))).2 ≠ k) →
      storeFind (idxs.foldl (linkStep ld) st) k = storeFind st k := by
  intro idxs
  induction idxs with
  | nil => intro st _; rfl
  | cons i idxs ih =>
    intro st h
    rw [List.foldl_cons, ih _ (fun i' hi' => h i' (List.mem_cons_of_mem _ hi')),
      storeFind_linkStep,
      if_neg (fun hk => h i (List.mem_cons_self _ _) hk.symm)]

theorem linkFold_touched (ld : List (Nat × Fid)) (k : Fid)
    (hldnd : (ld.map Prod.snd).Nodup) (j : Nat) (hj : j < ld.length)
    (hkj : (ld.get ⟨j, hj⟩).2 = k) :
    ∀ (idxs : List Nat) (st : SigStore), idxs.Nodup →
      (∀ i ∈ idxs, i < ld.length) → j ∈ idxs →
      storeFind (idxs.foldl (linkStep ld) st) k =
        (storeFind st k).map (linkApply ld j) := by
  intro idxs
  induction idxs with
  | nil => intro st _ _ hmem; exact absurd hmem (by simp)
  | cons i idxs ih =>
    intro st hnd hlt hmem
    rw [List.foldl_cons]
    rcases List.mem_cons.mp hmem with heq | htail
    · subst heq
      have huntouched : ∀ i' ∈ idxs, (ld.getD i' (0, ([], 0))).2 ≠ k := by
        intro i' hi'
        have hi'lt : i' < ld.length := hlt i' (List.mem_cons_of_mem _ hi')
        rw [List.getD_eq_getElem _ _ hi'lt]
        intro hk
        have hne : i' ≠ j := fun h =>
          (List.nodup_cons.mp hnd).1 (h ▸ hi')
        exact map_snd_get_ne ld hldnd hi'lt hj hne (hk.trans hkj.symm)
      rw [linkFold_untouched ld k idxs _ huntouched, storeFind_linkStep]
      rw [if_pos]
      rw [List.getD_eq_getElem _ _ hj]
      exact hkj.symm
    · have hne : i ≠ j := fun h =>
        (List.nodup_cons.mp hnd).1 (h ▸ htail)
      have hilt : i < ld.length := hlt i (List.mem_cons_self _ _)
      rw [ih _ (List.nodup_cons.mp hnd).2
        (fun i' hi' => hlt i' (List.mem_cons_of_mem _ hi')) htail,
        storeFind_linkStep]
      rw [if_neg]
      intro hk
      rw [List.getD_eq_getElem _ _ hilt] at hk
      exact map_snd_get_ne ld hldnd hilt hj hne (hk.symm.trans hkj.symm)

theorem storeFind_linkFile_untouched (st : SigStore)
    (ld : List (Nat × Fid)) (k : Fid) (h : ∀ p ∈ ld, p.2 ≠ k) :
    storeFind (linkFileSignatures st ld) k = storeFind st k := by
  unfold linkFileSignatures
  apply linkFold_untouched
  intro i hi
  have hilt : i < ld.length := List.mem_range.mp hi
  rw [List.getD_eq_getElem _ _ hilt]
  exact h _ (List.get_mem ld i hilt)

theorem storeFind_linkFile_touched (st : SigStore) (ld : List (Nat × Fid))
    (hldnd : (ld.map Prod.snd).Nodup) (j : Nat) (hj : j < ld.length) :
    storeFind (linkFileSignatures st ld) ((ld.get ⟨j, hj⟩).2) =
      (storeFind st ((ld.get ⟨j, hj⟩).2)).map (linkApply ld j) := by
  unfold linkFileSignatures
  exact linkFold_touched ld _ hldnd j hj rfl _ st (List.nodup_range _)
    (fun i hi => List.mem_range.mp hi) (List.mem_range.mpr hj)

/-! ### The fully linked store -/

theorem signatureKeys_snd (f : FileKey) (code : List Line) :
    ∀ p ∈ signatureKeys f code, p.2 = (f, p.1) := by
  rw [signatureKeys_eq]
  intro p hp
  rcases List.mem_map.mp hp with ⟨q, _, rfl⟩
  rfl

theorem signatureKeys_snd_nodup (f : FileKey) (code : List Line) :
    ((signatureKeys f code).map Prod.snd).Nodup := by
  rw [signatureKeys_eq, List.map_map]
  have h2 : (Prod.snd ∘ fun p : Nat × Line => ((p.1, (f, p.1)) : Nat × Fid)) =
      ((fun i => ((f, i) : Fid)) ∘ Prod.fst) := rfl
  rw [h2, ← List.map_map]
  exact List.Nodup.map (fun a b h => by simpa using h)
    (signedEnum_fst_nodup code)

theorem signatureKeys_length (f : FileKey) (code : List Line) :
    (signatureKeys f code).length = (signedEnum code).length := by
  rw [signatureKeys_eq, List.length_map]

theorem signatureKeys_get (f : FileKey) (code : List Line) (j : Nat)
    (hj : j < (signatureKeys f code).length)
    (hjE : j < (signedEnum code).length) :
    (signatureKeys f code).get ⟨j, hj⟩ =
      (((signedEnum code).get ⟨j, hjE⟩).1,
        (f, ((signedEnum code).get ⟨j, hjE⟩).1)) := by
  have h := signatureKeys_eq f code
  rw [List.get_of_eq h, List.get_map]

/-- The per-file linking pass applied to every file, as in `lshSignatures`. -/
theorem lsh_passes_untouched (k : Fid) :
    ∀ (fm : FileMapping) (st0 : SigStore), k.1 ∉ fm.map Prod.fst →
      storeFind (fm.foldl (fun st kv =>
        linkFileSignatures st (signatureKeys kv.1 kv.2.code)) st0) k =
      storeFind st0 k := by
  intro fm
  induction fm with
  | nil => intro st0 _; rfl
  | cons kv fm ih =>
    intro st0 hk
    rw [List.map_cons] at hk
    rw [List.foldl_cons,
      ih _ (fun h => hk (List.mem_cons_of_mem _ h))]
    apply storeFind_linkFile_untouched
    intro p hp hpk
    have hsnd := signatureKeys_snd kv.1 kv.2.code p hp
    apply hk
    have : k.1 = kv.1 := by rw [← hpk, hsnd]
    exact this ▸ List.mem_cons_self _ _

theorem lsh_passes_touched (k : Fid) :
    ∀ (fm : FileMapping), (fm.map Prod.fst).Nodup →
      ∀ (f : FileKey) (fd : FileData), (f, fd) ∈ fm →
      ∀ (j : Nat) (hj : j < (signatureKeys f fd.code).length),
        ((signatureKeys f fd.code).get ⟨j, hj⟩).2 = k →
      ∀ st0 : SigStore,
        storeFind (fm.foldl (fun st kv =>
          linkFileSignatures st (signatureKeys kv.1 kv.2.code)) st0) k =
        (storeFind st0 k).map (linkApply (signatureKeys f fd.code) j) := by
  intro fm
  induction fm with
  | nil =>
    intro _ f fd hmem
    exact absurd hmem (by simp)
  | cons kv fm ih =>
    intro hnd f fd hmem j hj hk st0
    rw [List.map_cons] at hnd
    have hk1 : k.1 = f := by
      have hsnd := signatureKeys_snd f fd.code _
        (List.get_mem (signatureKeys f fd.code) j hj)
      rw [← hk, hsnd]
    rw [List.foldl_cons]
    rcases List.mem_cons.mp hmem with heq | htail
    · have hkv : kv = (f, fd) := heq.symm
      subst hkv
      have hrest : k.1 ∉ fm.map Prod.fst := by
        rw [hk1]
        exact (List.nodup_cons.mp hnd).1
      rw [lsh_passes_untouched k fm _ hrest]
      have htch := storeFind_linkFile_touched st0 (signatureKeys f fd.code)
        (signatureKeys_snd_nodup f fd.code) j hj
      rw [hk] at htch
      exact htch
    · have hne : kv.1 ≠ f := by
        intro h
        have hin : f ∈ fm.map Prod.fst :=
          List.mem_map.mpr ⟨(f, fd), htail, rfl⟩
        exact (List.nodup_cons.mp hnd).1 (h ▸ hin)
      rw [ih (List.nodup_cons.mp hnd).2 f fd htail j hj hk]
      rw [storeFind_linkFile_untouched]
      intro p hp hpk
      have hsnd := signatureKeys_snd kv.1 kv.2.code p hp
      apply hne
      rw [← hk1, ← hpk, hsnd]

/-- Forward characterization of the linked signature store: the record
stored for the `j`-th signed line of file `(f, fd)`. -/
theorem lshSignatures_lookup (hfs : List (List Nat)) (fm : FileMapping)
    (hnd : (fm.map Prod.fst).Nodup) (f : FileKey) (fd : FileData)
    (hmem : (f, fd) ∈ fm) (j : Nat)
    (hj : j < (signatureKeys f fd.code).length) :
    storeFind (lshSignatures hfs fm)
        (((signatureKeys f fd.code).get ⟨j, hj⟩).2) =
      some (linkApply (signatureKeys f fd.code) j
        (baseRecord (lookupIdx (buildShingleList fm)) hfs f fd
          ((signedEnum fd.code).getD j (0, [])))) := by
  have hjE : j < (signedEnum fd.code).length := by
    rw [signatureKeys_length] at hj
    exact hj
  have hk := signatureKeys_get f fd.code j hj hjE
  unfold lshSignatures
  rw [lsh_passes_touched (((signatureKeys f fd.code).get ⟨j, hj⟩).2) fm hnd
    f fd hmem j hj rfl]
  rw [foldl_append_join, List.nil_append]
  rw [hk]
  rw [storeFind_blocks (lookupIdx (buildShingleList fm)) hfs fm hnd f fd hmem]
  set sE := signedEnum fd.code with hsE
  have hblock := buildFileSignatures_eq (lookupIdx (buildShingleList fm))
    hfs f fd
  have hjB : j < (buildFileSignatures (lookupIdx (buildShingleList fm))
      hfs f fd).length := by
    rw [hblock, List.length_map]
    exact hjE
  have hgetB : (buildFileSignatures (lookupIdx (buildShingleList fm))
      hfs f fd).get ⟨j, hjB⟩ =
      ((f, (sE.get ⟨j, hjE⟩).1),
        baseRecord (lookupIdx (buildShingleList fm)) hfs f fd
          (sE.get ⟨j, hjE⟩)) := by
    rw [List.get_of_eq hblock, List.get_map]
  have hndB : ((buildFileSignatures (lookupIdx (buildShingleList fm))
      hfs f fd).map Prod.fst).Nodup := by
    rw [hblock, List.map_map]
    have h2 : (Prod.fst ∘ fun p : Nat × Line =>
        (((f, p.1) : Fid),
          baseRecord (lookupIdx (buildShingleList fm)) hfs f fd p)) =
        ((fun i => ((f, i) : Fid)) ∘ Prod.fst) := rfl
    rw [h2, ← List.map_map]
    exact List.Nodup.map (fun a b h => by simpa using h)
      (signedEnum_fst_nodup fd.code)
  have hfind := storeFind_get _ hndB j hjB
  rw [hgetB] at hfind
  rw [hfind]
  rw [Option.map_some']
  rw [List.getD_eq_getElem _ _ hjE]
  rfl

/-- `linkStep` and the whole linking machinery never change the key
set. -/
theorem linkStep_map_fst (ld : List (Nat × Fid)) (st : SigStore) (i : Nat) :
    (linkStep ld st i).map Prod.fst = st.map Prod.fst := by
  unfold linkStep
  by_cases h1 : 0 < i <;> by_cases h2 : i < ld.length - 1 <;>
    simp [h1, h2, storeSet_map_fst]

theorem linkFileSignatures_map_fst (ld : List (Nat × Fid)) :
    ∀ st : SigStore,
      (linkFileSignatures st ld).map Prod.fst = st.map Prod.fst := by
  unfold linkFileSignatures
  generalize List.range ld.length = idxs
  induction idxs with
  | nil => intro st; rfl
  | cons i idxs ih =>
    intro st
    rw [List.foldl_cons, ih, linkStep_map_fst]

theorem lshSignatures_map_fst (hfs : List (List Nat)) (fm : FileMapping) :
    (lshSignatures hfs fm).map Prod.fst =
      ((fm.map (fun kv => buildFileSignatures
        (lookupIdx (buildShingleList fm)) hfs kv.1 kv.2)).flatten).map
        Prod.fst := by
  have h : lshSignatures hfs fm = fm.foldl
      (fun st kv => linkFileSignatures st (signatureKeys kv.1 kv.2.code))
      (fm.foldl (fun st kv => st ++ buildFileSignatures
        (lookupIdx (buildShingleList fm)) hfs kv.1 kv.2) []) := rfl
  rw [h, foldl_append_join, List.nil_append]
  generalize ((fm.map (fun kv => buildFileSignatures
    (lookupIdx (buildShingleList fm)) hfs kv.1 kv.2)).flatten) = st0
  generalize fm = l
  induction l generalizing st0 with
  | nil => rfl
  | cons kv l ih =>
    rw [List.foldl_cons, ih, linkFileSignatures_map_fst]

/-- Backward characterization: every key of the store is the fingerprint
id of a signed line of some input file. -/
theorem lshSignatures_lookup_inv (hfs : List (List Nat)) (fm : FileMapping)
    (k : Fid) (r : SigRecord)
    (h : storeFind (lshSignatures hfs fm) k = some r) :
    ∃ (f : FileKey) (fd : FileData), (f, fd) ∈ fm ∧
      ∃ (j : Nat) (hj : j < (signatureKeys f fd.code).length),
        ((signatureKeys f fd.code).get ⟨j, hj⟩).2 = k := by
  have hmem := storeFind_eq_some_mem h
  have hkmem : k ∈ (lshSignatures hfs fm).map Prod.fst :=
    List.mem_map.mpr ⟨(k, r), hmem, rfl⟩
  rw [lshSignatures_map_fst] at hkmem
  rw [List.map_flatten] at hkmem
  rcases List.mem_flatten.mp hkmem with ⟨L, hL, hkL⟩
  rw [List.mem_map] at hL
  rcases hL with ⟨Lb, hLb, rfl⟩
  rw [List.mem_map] at hLb
  rcases hLb with ⟨kv, hkv, rfl⟩
  refine ⟨kv.1, kv.2, by simpa using hkv, ?_⟩
  rw [buildFileSignatures_eq, List.map_map] at hkL
  rcases List.mem_map.mp hkL with ⟨p, hp, hpk⟩
  rcases List.mem_iff_get.mp hp with ⟨n, hn⟩
  have hjk : n < (signatureKeys kv.1 kv.2.code).length := by
    rw [signatureKeys_length]
    exact n.2
  refine ⟨n, hjk, ?_⟩
  rw [signatureKeys_get kv.1 kv.2.code n hjk n.2]
  have : (Prod.fst ∘ fun p : Nat × Line =>
      (((kv.1, p.1) : Fid),
        baseRecord (lookupIdx (buildShingleList fm)) hfs kv.1 kv.2 p)) p =
      k := hpk
  rw [← this, hn]
  rfl

theorem baseRecord_file (simap : Line → Option Nat) (hfs : List (List Nat))
    (f : FileKey) (fd : FileData) (p : Nat × Line) :
    (baseRecord simap hfs f fd p).file = f := rfl

theorem baseRecord_line_number (simap : Line → Option Nat)
    (hfs : List (List Nat)) (f : FileKey) (fd : FileData) (p : Nat × Line) :
    (baseRecord simap hfs f fd p).line_number = p.1 := rfl

theorem baseRecord_next (simap : Line → Option Nat)
    (hfs : List (List Nat)) (f : FileKey) (fd : FileData) (p : Nat × Line) :
    (baseRecord simap hfs f fd p).next_signature = none := rfl

theorem baseRecord_prev (simap : Line → Option Nat)
    (hfs : List (List Nat)) (f : FileKey) (fd : FileData) (p : Nat × Line) :
    (baseRecord simap hfs f fd p).prev_signature = none := rfl

theorem baseRecord_orig (simap : Line → Option Nat)
    (hfs : List (List Nat)) (f : FileKey) (fd : FileData) (p : Nat × Line) :
    (baseRecord simap hfs f fd p).original_line_number =
      fd.line_mapping.getD p.1 0 := rfl

/-- Every successful lookup in the linked store comes from a position
`j` in its file's signed-line list, and the record found is exactly the
linked base record of that position. -/
theorem store_pos (hfs : List (List Nat)) (fm : FileMapping)
    (hnd : (fm.map Prod.fst).Nodup) {x : Fid} {rx : SigRecord}
    (hx : storeFind (lshSignatures hfs fm) x = some rx) :
    ∃ (f : FileKey) (fd : FileData) (hmem : (f, fd) ∈ fm) (j : Nat)
      (hj : j < (signatureKeys f fd.code).length),
      x = ((signatureKeys f fd.code).get ⟨j, hj⟩).2 ∧
      rx = linkApply (signatureKeys f fd.code) j
        (baseRecord (lookupIdx (buildShingleList fm)) hfs f fd
          ((signedEnum fd.code).getD j (0, []))) := by
  rcases lshSignatures_lookup_inv hfs fm x rx hx with ⟨f, fd, hmem, j, hj, hxk⟩
  have hchar := lshSignatures_lookup hfs fm hnd f fd hmem j hj
  rw [hxk, hx] at hchar
  exact ⟨f, fd, hmem, j, hj, hxk.symm, Option.some.inj hchar⟩

/-- C8. In the signature store built by `lsh`, prev/next links between
signed lines are symmetric and stay within one file: if `x`'s
`next_signature` is `y` then `y`'s `prev_signature` is `x` and both
records carry the same file, and conversely if `y`'s `prev_signature`
is `x` then `x`'s `next_signature` is `y` and the files agree.  (The
file keys of the input mapping are distinct, as Python dict keys
are.) -/
theorem lsh_linkage_symmetry (hfs : List (List Nat)) (fm : FileMapping)
    (hnd : (fm.map Prod.fst).Nodup) (x y : Fid) (rx ry : SigRecord)
    (hx : storeFind (lshSignatures hfs fm) x = some rx)
    (hy : storeFind (lshSignatures hfs fm) y = some ry) :
    (rx.next_signature = some y →
      ry.prev_signature = some x ∧ rx.file = ry.file) ∧
    (ry.prev_signature = some x →
      rx.next_signature = some y ∧ rx.file = ry.file) := by
  constructor
  · intro hnext
    rcases store_pos hfs fm hnd hx with ⟨f, fd, hmem, j, hj, hxk, hrx⟩
    have hnext2 := hnext
    rw [hrx, linkApply_next] at hnext2
    by_cases hlt : j < (signatureKeys f fd.code).length - 1
    · rw [if_pos hlt] at hnext2
      have hj1 : j + 1 < (signatureKeys f fd.code).length := by omega
      have hyk : y = ((signatureKeys f fd.code).get ⟨j + 1, hj1⟩).2 := by
        have := Option.some.inj hnext2
        rw [← this, List.getD_eq_getElem _ _ hj1]
        rfl
      have hchar := lshSignatures_lookup hfs fm hnd f fd hmem (j + 1) hj1
      rw [← hyk, hy] at hchar
      have hry := Option.some.inj hchar
      constructor
      · rw [hry, linkApply_prev, if_pos (by omega)]
        simp only [Nat.add_sub_cancel]
        rw [List.getD_eq_getElem _ _ hj, hxk]
        rfl
      · rw [hrx, hry, linkApply_file, linkApply_file, baseRecord_file,
          baseRecord_file]
    · rw [if_neg hlt, baseRecord_next] at hnext2
      exact absurd hnext2 (by simp)
  · intro hprev
    rcases store_pos hfs fm hnd hy with ⟨f, fd, hmem, m, hm, hyk, hry⟩
    have hprev2 := hprev
    rw [hry, linkApply_prev] at hprev2
    by_cases hpos : 0 < m
    · rw [if_pos hpos] at hprev2
      have hm1 : m - 1 < (signatureKeys f fd.code).length := by omega
      have hxk : x = ((signatureKeys f fd.code).get ⟨m - 1, hm1⟩).2 := by
        have := Option.some.inj hprev2
        rw [← this, List.getD_eq_getElem _ _ hm1]
        rfl
      have hchar := lshSignatures_lookup hfs fm hnd f fd hmem (m - 1) hm1
      rw [← hxk, hx] at hchar
      have hrx := Option.some.inj hchar
      constructor
      · rw [hrx, linkApply_next, if_pos (by omega)]
        have hmm : m - 1 + 1 = m := by omega
        rw [hmm, List.getD_eq_getElem _ _ hm, hyk]
        rfl
      · rw [hrx, hry, linkApply_file, linkApply_file, baseRecord_file,
          baseRecord_file]
    · rw [if_neg hpos, baseRecord_prev] at hprev2
      exact absurd hprev2 (by simp)

/-- C8 witness: in the one-file store over two signed lines, line 0's
next is line 1, line 1's prev is line 0, and the files agree. -/
theorem lsh_linkage_symmetry_witness :
    c8rx.next_signature = some (['a'], 1) ∧
      c8ry.prev_signature = some (['a'], 0) ∧ c8rx.file = c8ry.file := by
  have h := lsh_linkage_symmetry c8Hfs c8Fm (by decide) (['a'], 0)
    (['a'], 1) c8rx c8ry (by decide) (by decide)
  have hnext : c8rx.next_signature = some (['a'], 1) := by decide
  exact ⟨hnext, (h.1 hnext).1, (h.1 hnext).2⟩

/-! ### Record shapes and neighbour steps in the linked store -/

theorem nodup_keys_unique {α β : Type} {l : List (α × β)}
    (h : (l.map Prod.fst).Nodup) {f : α} {a b : β}
    (ha : (f, a) ∈ l) (hb : (f, b) ∈ l) : a = b := by
  induction l with
  | nil => exact absurd ha (by simp)
  | cons kv l ih =>
    rw [List.map_cons] at h
    rcases List.mem_cons.mp ha with h1 | h1 <;>
      rcases List.mem_cons.mp hb with h2 | h2
    · exact congrArg Prod.snd (h1.trans h2.symm)
    · exfalso
      apply (List.nodup_cons.mp h).1
      have hf : kv.1 = f := congrArg Prod.fst h1.symm
      rw [hf]
      exact List.mem_map.mpr ⟨(f, b), h2, rfl⟩
    · exfalso
      apply (List.nodup_cons.mp h).1
      have hf : kv.1 = f := congrArg Prod.fst h2.symm
      rw [hf]
      exact List.mem_map.mpr ⟨(f, a), h1, rfl⟩
    · exact ih (List.nodup_cons.mp h).2 h1 h2

theorem create_signature_length (s : List Line) (simap : Line → Option Nat)
    (hfs : List (List Nat)) :
    (create_signature s simap hfs).length = hfs.length := by
  unfold create_signature
  by_cases h : s.filterMap simap = [] <;> simp [h]

theorem signedEnum_fst_lt (code : List Line) {i j : Nat}
    (hi : i < (signedEnum code).length) (hj : j < (signedEnum code).length)
    (hij : i < j) :
    ((signedEnum code).get ⟨i, hi⟩).1 < ((signedEnum code).get ⟨j, hj⟩).1 := by
  have hp := signedEnum_fst_pairwise code
  rw [List.pairwise_iff_get] at hp
  have h2 := hp ⟨i, by simpa using hi⟩ ⟨j, by simpa using hj⟩
    (by simpa using hij)
  simpa [List.get_map] using h2

/-- The shape of every record in the linked store: its file, line
number, signature, original line number, and the fact that its key is
`(file, line_number)`. -/
theorem store_record_shape (hfs : List (List Nat)) (fm : FileMapping)
    (hnd : (fm.map Prod.fst).Nodup) {x : Fid} {rx : SigRecord}
    (hx : storeFind (lshSignatures hfs fm) x = some rx) :
    ∃ (f : FileKey) (fd : FileData), (f, fd) ∈ fm ∧
      rx.file = f ∧ x = (f, rx.line_number) ∧
      rx.line_number < fd.code.length ∧
      rx.original_line_number = fd.line_mapping.getD rx.line_number 0 ∧
      rx.signature.length = hfs.length := by
  rcases store_pos hfs fm hnd hx with ⟨f, fd, hmem, j, hj, hxk, hrx⟩
  have hjE : j < (signedEnum fd.code).length := by
    rw [signatureKeys_length] at hj
    exact hj
  have hgd : (signedEnum fd.code).getD j (0, []) =
      (signedEnum fd.code).get ⟨j, hjE⟩ := by
    rw [List.getD_eq_getElem _ _ hjE]
    rfl
  have hline : rx.line_number = ((signedEnum fd.code).get ⟨j, hjE⟩).1 := by
    rw [hrx, linkApply_line_number, hgd, baseRecord_line_number]
  have hmemE := List.get_mem (signedEnum fd.code) j hjE
  have hcode := (mem_signedEnum.mp hmemE).1
  have hlt : ((signedEnum fd.code).get ⟨j, hjE⟩).1 < fd.code.length := by
    rcases List.get?_eq_some.mp hcode with ⟨h, _⟩
    exact h
  refine ⟨f, fd, hmem, ?_, ?_, ?_, ?_, ?_⟩
  · rw [hrx, linkApply_file, baseRecord_file]
  · rw [hxk, signatureKeys_get f fd.code j hj hjE, hline]
  · rw [hline]
    exact hlt
  · rw [hline, hrx, linkApply_original_line_number, hgd, baseRecord_orig]
  · rw [hrx, linkApply_signature, hgd]
    exact create_signature_length _ _ _

/-- Following a `prev_signature` link lands on the preceding signed
line of the same file: smaller line number, same file, and the records
carry the file's `line_mapping` values as original line numbers. -/
theorem store_prev_step (hfs : List (List Nat)) (fm : FileMapping)
    (hnd : (fm.map Prod.fst).Nodup) {x : Fid} {rx : SigRecord} {p : Fid}
    (hx : storeFind (lshSignatures hfs fm) x = some rx)
    (hp : rx.prev_signature = some p) :
    ∃ (rp : SigRecord) (f : FileKey) (fd : FileData),
      storeFind (lshSignatures hfs fm) p = some rp ∧ (f, fd) ∈ fm ∧
      rx.file = f ∧ rp.file = f ∧
      rp.line_number < rx.line_number ∧ rx.line_number < fd.code.length ∧
      rp.original_line_number = fd.line_mapping.getD rp.line_number 0 ∧
      rx.original_line_number = fd.line_mapping.getD rx.line_number 0 ∧
      rp.signature.length = hfs.length := by
  rcases store_pos hfs fm hnd hx with ⟨f, fd, hmem, j, hj, hxk, hrx⟩
  have hp2 := hp
  rw [hrx, linkApply_prev] at hp2
  by_cases hpos : 0 < j
  · rw [if_pos hpos] at hp2
    have hj1 : j - 1 < (signatureKeys f fd.code).length := by omega
    have hpk : p = ((signatureKeys f fd.code).get ⟨j - 1, hj1⟩).2 := by
      have := Option.some.inj hp2
      rw [← this, List.getD_eq_getElem _ _ hj1]
      rfl
    have hchar := lshSignatures_lookup hfs fm hnd f fd hmem (j - 1) hj1
    rw [← hpk] at hchar
    rcases store_record_shape hfs fm hnd hx with
      ⟨f', fd', hmem', hxf, _, hxlt, hxorig, _⟩
    rcases store_record_shape hfs fm hnd hchar with
      ⟨g, gd, hgmem, hpf, hpkey, _, hporig, hpsig⟩
    have hjE : j < (signedEnum fd.code).length := by
      rw [signatureKeys_length] at hj
      exact hj
    have hj1E : j - 1 < (signedEnum fd.code).length := by omega
    have hxline : rx.line_number = ((signedEnum fd.code).get ⟨j, hjE⟩).1 := by
      rw [hrx, linkApply_line_number]
      rw [List.getD_eq_getElem _ _ hjE]
      rfl
    have hpline : (linkApply (signatureKeys f fd.code) (j - 1)
        (baseRecord (lookupIdx (buildShingleList fm)) hfs f fd
          ((signedEnum fd.code).getD (j - 1) (0, [])))).line_number =
        ((signedEnum fd.code).get ⟨j - 1, hj1E⟩).1 := by
      rw [linkApply_line_number]
      rw [List.getD_eq_getElem _ _ hj1E]
      rfl
    have hff' : f' = f := by
      rw [← hxf, hrx, linkApply_file, baseRecord_file]
    have hgf : g = f := by
      rw [← hpf, linkApply_file, baseRecord_file]
    have hfd' : fd' = fd := by
      have h1 : (f, fd') ∈ fm := hff' ▸ hmem'
      have := nodup_keys_unique hnd h1 hmem
      exact this
    have hgd2 : gd = fd := by
      have h1 : (f, gd) ∈ fm := hgf ▸ hgmem
      exact nodup_keys_unique hnd h1 hmem
    refine ⟨_, f, fd, hchar, hmem, hff' ▸ hxf, hgf ▸ hpf, ?_, ?_, ?_, ?_,
      hpsig⟩
    · rw [hpline, hxline]
      exact signedEnum_fst_lt fd.code hj1E hjE (by omega)
    · exact hfd' ▸ hxlt
    · rw [hgd2] at hporig
      exact hporig
    · rw [hfd'] at hxorig
      exact hxorig
  · rw [if_neg hpos, baseRecord_prev] at hp2
    exact absurd hp2 (by simp)

/-- Following a `next_signature` link lands on the following signed
line of the same file. -/
theorem store_next_step (hfs : List (List Nat)) (fm : FileMapping)
    (hnd : (fm.map Prod.fst).Nodup) {x : Fid} {rx : SigRecord} {n : Fid}
    (hx : storeFind (lshSignatures hfs fm) x = some rx)
    (hn : rx.next_signature = some n) :
    ∃ (rn : SigRecord) (f : FileKey) (fd : FileData),
      storeFind (lshSignatures hfs fm) n = some rn ∧ (f, fd) ∈ fm ∧
      rx.file = f ∧ rn.file = f ∧
      rx.line_number < rn.line_number ∧ rn.line_number < fd.code.length ∧
      rn.original_line_number = fd.line_mapping.getD rn.line_number 0 ∧
      rx.original_line_number = fd.line_mapping.getD rx.line_number 0 ∧
      rn.signature.length = hfs.length := by
  rcases store_pos hfs fm hnd hx with ⟨f, fd, hmem, j, hj, hxk, hrx⟩
  have hn2 := hn
  rw [hrx, linkApply_next] at hn2
  by_cases hlt : j < (signatureKeys f fd.code).length - 1
  · rw [if_pos hlt] at hn2
    have hj1 : j + 1 < (signatureKeys f fd.code).length := by omega
    have hnk : n = ((signatureKeys f fd.code).get ⟨j + 1, hj1⟩).2 := by
      have := Option.some.inj hn2
      rw [← this, List.getD_eq_getElem _ _ hj1]
      rfl
    have hchar := lshSignatures_lookup hfs fm hnd f fd hmem (j + 1) hj1
    rw [← hnk] at hchar
    rcases store_record_shape hfs fm hnd hx with
      ⟨f', fd', hmem', hxf, _, _, hxorig, _⟩
    rcases store_record_shape hfs fm hnd hchar with
      ⟨g, gd, hgmem, hnf, _, hnlt, hnorig, hnsig⟩
    have hjE : j < (signedEnum fd.code).length := by
      rw [signatureKeys_length] at hj
      exact hj
    have hj1E : j + 1 < (signedEnum fd.code).length := by
      rw [signatureKeys_length] at hj1
      exact hj1
    have hxline : rx.line_number = ((signedEnum fd.code).get ⟨j, hjE⟩).1 := by
      rw [hrx, linkApply_line_number]
      rw [List.getD_eq_getElem _ _ hjE]
      rfl
    have hnline : (linkApply (signatureKeys f fd.code) (j + 1)
        (baseRecord (lookupIdx (buildShingleList fm)) hfs f fd
          ((signedEnum fd.code).getD (j + 1) (0, [])))).line_number =
        ((signedEnum fd.code).get ⟨j + 1, hj1E⟩).1 := by
      rw [linkApply_line_number]
      rw [List.getD_eq_getElem _ _ hj1E]
      rfl
    have hff' : f' = f := by
      rw [← hxf, hrx, linkApply_file, baseRecord_file]
    have hgf : g = f := by
      rw [← hnf, linkApply_file, baseRecord_file]
    have hfd' : fd' = fd := by
      have h1 : (f, fd') ∈ fm := hff' ▸ hmem'
      exact nodup_keys_unique hnd h1 hmem
    have hgd2 : gd = fd := by
      have h1 : (f, gd) ∈ fm := hgf ▸ hgmem
      exact nodup_keys_unique hnd h1 hmem
    refine ⟨_, f, fd, hchar, hmem, hff' ▸ hxf, hgf ▸ hnf, ?_, ?_, ?_, ?_,
      hnsig⟩
    · rw [hnline, hxline]
      exact signedEnum_fst_lt fd.code hjE hj1E (by omega)
    · exact hgd2 ▸ hnlt
    · rw [hgd2] at hnorig
      exact hnorig
    · rw [hfd'] at hxorig
      exact hxorig
  · rw [if_neg hlt, baseRecord_next] at hn2
    exact absurd hn2 (by simp)

/-! ### Termination and monotonicity of the growth loops -/

theorem sim_some_of_length {a b : List Nat} {n : Nat} (ha : a.length = n)
    (hb : b.length = n) (hn : n ≠ 0) :
    ∃ q, calculate_jaccard_similarity a b = some q := by
  unfold calculate_jaccard_similarity
  rw [if_neg (by omega), if_neg (by omega)]
  exact ⟨_, rfl⟩

theorem growUp_terminates (hfs : List (List Nat)) (fm : FileMapping)
    (hnd : (fm.map Prod.fst).Nodup) (hhfs : hfs ≠ []) (t : ℚ) :
    ∀ (fuel : Nat) (x y : Fid) (rx ry : SigRecord),
      storeFind (lshSignatures hfs fm) x = some rx →
      storeFind (lshSignatures hfs fm) y = some ry →
      rx.line_number < fuel →
      ∃ r, growUp (lshSignatures hfs fm) t fuel (x, y) = some r := by
  have hn : hfs.length ≠ 0 := fun h =>
    hhfs (List.eq_nil_of_length_eq_zero h)
  intro fuel
  induction fuel with
  | zero => intro x y rx ry _ _ h; omega
  | succ fuel ih =>
    intro x y rx ry hx hy hlt
    simp only [growUp, hx, hy]
    rcases hp1 : rx.prev_signature with _ | p1
    · exact ⟨(x, y), rfl⟩
    rcases hp2 : ry.prev_signature with _ | p2
    · exact ⟨(x, y), rfl⟩
    dsimp only
    rcases store_prev_step hfs fm hnd hx hp1 with
      ⟨rp1, _, _, hfind1, _, _, _, hless1, _, _, _, hsig1⟩
    rcases store_prev_step hfs fm hnd hy hp2 with
      ⟨rp2, _, _, hfind2, _, _, _, _, _, _, _, hsig2⟩
    rcases sim_some_of_length hsig1 hsig2 hn with ⟨q, hq⟩
    rw [hfind1, hfind2]
    dsimp only
    rw [hq]
    dsimp only
    by_cases hqt : q < t
    · rw [if_pos hqt]
      exact ⟨(x, y), rfl⟩
    · rw [if_neg hqt]
      exact ih p1 p2 rp1 rp2 hfind1 hfind2 (by omega)

theorem growDown_terminates (hfs : List (List Nat)) (fm : FileMapping)
    (hnd : (fm.map Prod.fst).Nodup) (hhfs : hfs ≠ []) (t : ℚ) :
    ∀ (fuel : Nat) (x y : Fid) (rx ry : SigRecord)
      (f : FileKey) (fd : FileData) (acc1 acc2 : List Fid),
      (f, fd) ∈ fm → rx.file = f →
      storeFind (lshSignatures hfs fm) x = some rx →
      storeFind (lshSignatures hfs fm) y = some ry →
      fd.code.length - rx.line_number ≤ fuel →
      ∃ r, growDown (lshSignatures hfs fm) t fuel (x, y) acc1 acc2 =
        some r := by
  have hn : hfs.length ≠ 0 := fun h =>
    hhfs (List.eq_nil_of_length_eq_zero h)
  intro fuel
  induction fuel with
  | zero =>
    intro x y rx ry f fd acc1 acc2 hmem hxf hx hy hle
    exfalso
    rcases store_record_shape hfs fm hnd hx with
      ⟨f', fd', hmem', hxf', _, hxlt, _, _⟩
    have hf : f' = f := hxf'.symm.trans hxf
    have hfd : fd' = fd := nodup_keys_unique hnd (hf ▸ hmem') hmem
    rw [hfd] at hxlt
    omega
  | succ fuel ih =>
    intro x y rx ry f fd acc1 acc2 hmem hxf hx hy hle
    simp only [growDown, hx, hy]
    rcases hn1 : rx.next_signature with _ | n1
    · exact ⟨(x, y, acc1, acc2), rfl⟩
    rcases hn2 : ry.next_signature with _ | n2
    · exact ⟨(x, y, acc1, acc2), rfl⟩
    dsimp only
    rcases store_next_step hfs fm hnd hx hn1 with
      ⟨rn1, f0, fd0, hfind1, hmem0, hxf0, hnf0, hmore, hnlt, _, _, hsig1⟩
    rcases store_next_step hfs fm hnd hy hn2 with
      ⟨rn2, _, _, hfind2, _, _, _, _, _, _, _, hsig2⟩
    rcases sim_some_of_length hsig1 hsig2 hn with ⟨q, hq⟩
    rw [hfind1, hfind2]
    dsimp only
    rw [hq]
    dsimp only
    by_cases hqt : q < t
    · rw [if_pos hqt]
      exact ⟨(x, y, acc1, acc2), rfl⟩
    · rw [if_neg hqt]
      have hf0 : f0 = f := hxf0.symm.trans hxf
      have hfd0 : fd0 = fd := nodup_keys_unique hnd (hf0 ▸ hmem0) hmem
      refine ih n1 n2 rn1 rn2 f fd _ _ hmem (hf0 ▸ hnf0) hfind1 hfind2 ?_
      rw [hfd0] at hnlt
      omega

theorem sorted_getD_le {l : List Nat} (hs : List.Sorted (· ≤ ·) l)
    {i j : Nat} (hij : i ≤ j) (hj : j < l.length) :
    l.getD i 0 ≤ l.getD j 0 := by
  have hi : i < l.length := by omega
  rw [List.getD_eq_getElem _ _ hi, List.getD_eq_getElem _ _ hj]
  rcases Nat.eq_or_lt_of_le hij with heq | hlt
  · subst heq
    exact le_refl _
  · have hp := List.pairwise_iff_get.mp hs ⟨i, hi⟩ ⟨j, hj⟩
      (Fin.mk_lt_mk.mpr hlt)
    simpa [List.get_eq_getElem] using hp

/-- The original line numbers never increase along the upward loop:
the endpoint records exist and their `original_line_number`s are at
most the seeds', provided every file's `line_mapping` is sorted and at
least as long as its code. -/
theorem growUp_le (hfs : List (List Nat)) (fm : FileMapping)
    (hnd : (fm.map Prod.fst).Nodup)
    (hsort : ∀ kv ∈ fm, List.Sorted (· ≤ ·) kv.2.line_mapping)
    (hlen : ∀ kv ∈ fm, kv.2.code.length ≤ kv.2.line_mapping.length)
    (t : ℚ) :
    ∀ (fuel : Nat) (x y u v : Fid) (rx ry : SigRecord),
      storeFind (lshSignatures hfs fm) x = some rx →
      storeFind (lshSignatures hfs fm) y = some ry →
      growUp (lshSignatures hfs fm) t fuel (x, y) = some (u, v) →
      ∃ ru rv, storeFind (lshSignatures hfs fm) u = some ru ∧
        storeFind (lshSignatures hfs fm) v = some rv ∧
        ru.original_line_number ≤ rx.original_line_number ∧
        rv.original_line_number ≤ ry.original_line_number := by
  intro fuel
  induction fuel with
  | zero =>
    intro x y u v rx ry _ _ hgrow
    exact absurd hgrow (by simp [growUp])
  | succ fuel ih =>
    intro x y u v rx ry hx hy hgrow
    simp only [growUp, hx, hy] at hgrow
    rcases hp1 : rx.prev_signature with _ | p1
    · rw [hp1] at hgrow
      dsimp only at hgrow
      rcases Prod.mk.injEq .. ▸ Option.some.inj hgrow with ⟨rfl, rfl⟩
      exact ⟨rx, ry, hx, hy, le_refl _, le_refl _⟩
    rcases hp2 : ry.prev_signature with _ | p2
    · rw [hp1, hp2] at hgrow
      dsimp only at hgrow
      rcases Prod.mk.injEq .. ▸ Option.some.inj hgrow with ⟨rfl, rfl⟩
      exact ⟨rx, ry, hx, hy, le_refl _, le_refl _⟩
    rw [hp1, hp2] at hgrow
    dsimp only at hgrow
    rcases store_prev_step hfs fm hnd hx hp1 with
      ⟨rp1, f1, fd1, hfind1, hmem1, hxf1, hpf1, hless1, hxlt1, hporig1,
        hxorig1, hsig1⟩
    rcases store_prev_step hfs fm hnd hy hp2 with
      ⟨rp2, f2, fd2, hfind2, hmem2, hyf2, hpf2, hless2, hylt2, hporig2,
        hyorig2, hsig2⟩
    rw [hfind1, hfind2] at hgrow
    dsimp only at hgrow
    have hle1 : rp1.original_line_number ≤ rx.original_line_number := by
      rw [hporig1, hxorig1]
      have hs0 : List.Sorted (· ≤ ·) fd1.line_mapping := hsort (f1, fd1) hmem1
      have hl0 : fd1.code.length ≤ fd1.line_mapping.length := hlen (f1, fd1) hmem1
      exact sorted_getD_le hs0 (by omega) (by omega)
    have hle2 : rp2.original_line_number ≤ ry.original_line_number := by
      rw [hporig2, hyorig2]
      have hs0 : List.Sorted (· ≤ ·) fd2.line_mapping := hsort (f2, fd2) hmem2
      have hl0 : fd2.code.length ≤ fd2.line_mapping.length := hlen (f2, fd2) hmem2
      exact sorted_getD_le hs0 (by omega) (by omega)
    rcases hq : calculate_jaccard_similarity rp1.signature rp2.signature
      with _ | q
    · rw [hq] at hgrow
      dsimp only at hgrow
      exact absurd hgrow (by simp)
    rw [hq] at hgrow
    dsimp only at hgrow
    by_cases hqt : q < t
    · rw [if_pos hqt] at hgrow
      rcases Prod.mk.injEq .. ▸ Option.some.inj hgrow with ⟨rfl, rfl⟩
      exact ⟨rx, ry, hx, hy, le_refl _, le_refl _⟩
    · rw [if_neg hqt] at hgrow
      rcases ih p1 p2 u v rp1 rp2 hfind1 hfind2 hgrow with
        ⟨ru, rv, hu, hv, hule, hvle⟩
      exact ⟨ru, rv, hu, hv, le_trans hule hle1, le_trans hvle hle2⟩

/-- The original line numbers never decrease along the downward loop. -/
theorem growDown_ge (hfs : List (List Nat)) (fm : FileMapping)
    (hnd : (fm.map Prod.fst).Nodup)
    (hsort : ∀ kv ∈ fm, List.Sorted (· ≤ ·) kv.2.line_mapping)
    (hlen : ∀ kv ∈ fm, kv.2.code.length ≤ kv.2.line_mapping.length)
    (t : ℚ) :
    ∀ (fuel : Nat) (x y u v : Fid) (acc1 acc2 l1 l2 : List Fid)
      (rx ry : SigRecord),
      storeFind (lshSignatures hfs fm) x = some rx →
      storeFind (lshSignatures hfs fm) y = some ry →
      growDown (lshSignatures hfs fm) t fuel (x, y) acc1 acc2 =
        some (u, v, l1, l2) →
      ∃ ru rv, storeFind (lshSignatures hfs fm) u = some ru ∧
        storeFind (lshSignatures hfs fm) v = some rv ∧
        rx.original_line_number ≤ ru.original_line_number ∧
        ry.original_line_number ≤ rv.original_line_number := by
  intro fuel
  induction fuel with
  | zero =>
    intro x y u v acc1 acc2 l1 l2 rx ry _ _ hgrow
    exact absurd hgrow (by simp [growDown])
  | succ fuel ih =>
    intro x y u v acc1 acc2 l1 l2 rx ry hx hy hgrow
    simp only [growDown, hx, hy] at hgrow
    rcases hn1 : rx.next_signature with _ | n1
    · rw [hn1] at hgrow
      dsimp only at hgrow
      rcases Option.some.inj hgrow with heq
      obtain ⟨rfl, rfl, rfl, rfl⟩ :
          x = u ∧ y = v ∧ acc1 = l1 ∧ acc2 = l2 := by
        have h1 := congrArg Prod.fst heq
        have h2 := congrArg (fun z => z.2.1) heq
        have h3 := congrArg (fun z => z.2.2.1) heq
        have h4 := congrArg (fun z => z.2.2.2) heq
        exact ⟨h1, h2, h3, h4⟩
      exact ⟨rx, ry, hx, hy, le_refl _, le_refl _⟩
    rcases hn2 : ry.next_signature with _ | n2
    · rw [hn1, hn2] at hgrow
      dsimp only at hgrow
      rcases Option.some.inj hgrow with heq
      obtain ⟨rfl, rfl, rfl, rfl⟩ :
          x = u ∧ y = v ∧ acc1 = l1 ∧ acc2 = l2 := by
        have h1 := congrArg Prod.fst heq
        have h2 := congrArg (fun z => z.2.1) heq
        have h3 := congrArg (fun z => z.2.2.1) heq
        have h4 := congrArg (fun z => z.2.2.2) heq
        exact ⟨h1, h2, h3, h4⟩
      exact ⟨rx, ry, hx, hy, le_refl _, le_refl _⟩
    rw [hn1, hn2] at hgrow
    dsimp only at hgrow
    rcases store_next_step hfs fm hnd hx hn1 with
      ⟨rn1, f1, fd1, hfind1, hmem1, hxf1, hnf1, hless1, hnlt1, hnorig1,
        hxorig1, hsig1⟩
    rcases store_next_step hfs fm hnd hy hn2 with
      ⟨rn2, f2, fd2, hfind2, hmem2, hyf2, hnf2, hless2, hnlt2, hnorig2,
        hyorig2, hsig2⟩
    rw [hfind1, hfind2] at hgrow
    dsimp only at hgrow
    have hle1 : rx.original_line_number ≤ rn1.original_line_number := by
      rw [hnorig1, hxorig1]
      have hs0 : List.Sorted (· ≤ ·) fd1.line_mapping := hsort (f1, fd1) hmem1
      have hl0 : fd1.code.length ≤ fd1.line_mapping.length := hlen (f1, fd1) hmem1
      exact sorted_getD_le hs0 (by omega) (by omega)
    have hle2 : ry.original_line_number ≤ rn2.original_line_number := by
      rw [hnorig2, hyorig2]
      have hs0 : List.Sorted (· ≤ ·) fd2.line_mapping := hsort (f2, fd2) hmem2
      have hl0 : fd2.code.length ≤ fd2.line_mapping.length := hlen (f2, fd2) hmem2
      exact sorted_getD_le hs0 (by omega) (by omega)
    rcases hq : calculate_jaccard_similarity rn1.signature rn2.signature
      with _ | q
    · rw [hq] at hgrow
      dsimp only at hgrow
      exact absurd hgrow (by simp)
    rw [hq] at hgrow
    dsimp only at hgrow
    by_cases hqt : q < t
    · rw [if_pos hqt] at hgrow
      rcases Option.some.inj hgrow with heq
      obtain ⟨rfl, rfl⟩ : x = u ∧ y = v := by
        have h1 := congrArg Prod.fst heq
        have h2 := congrArg (fun z => z.2.1) heq
        exact ⟨h1, h2⟩
      exact ⟨rx, ry, hx, hy, le_refl _, le_refl _⟩
    · rw [if_neg hqt] at hgrow
      rcases ih n1 n2 u v _ _ l1 l2 rn1 rn2 hfind1 hfind2 hgrow with
        ⟨ru, rv, hu, hv, hule, hvle⟩
      exact ⟨ru, rv, hu, hv, le_trans hle1 hule, le_trans hle2 hvle⟩

/-! ### Banding characterization -/

theorem bucketAdd_lookup (bb : Banding) (key key' : Nat × List Nat)
    (fid : Fid) :
    bucketsOf (bucketAdd bb key' fid) key =
      bucketsOf bb key ++ (if key = key' then [fid] else []) := by
  unfold bucketAdd bucketsOf
  by_cases hany : bb.any (fun e => decide (e.1 = key')) = true
  · rw [if_pos hany, List.find?_map]
    have hpred : ((fun e : (Nat × List Nat) × List Fid => decide (e.1 = key)) ∘
        (fun e : (Nat × List Nat) × List Fid =>
          if e.1 = key' then (e.1, e.2 ++ [fid]) else e)) =
        fun e : (Nat × List Nat) × List Fid => decide (e.1 = key) := by
      funext e
      by_cases he : e.1 = key' <;> simp [he]
    rw [hpred]
    rcases hf : bb.find? (fun e => decide (e.1 = key)) with _ | e
    · rw [hf]
      by_cases hkk : key = key'
      · exfalso
        rcases List.any_eq_true.mp hany with ⟨e, he, hpe⟩
        have h2 := List.find?_eq_none.mp hf e he
        rw [hkk] at h2
        simp at h2 hpe
        exact h2 hpe
      · simp [hkk]
    · rw [hf]
      have h1 : e.1 = key := by simpa using List.find?_some hf
      by_cases hkk : key = key'
      · simp [h1, hkk]
      · have h2 : e.1 ≠ key' := fun h => hkk (h1.symm.trans h)
        simp [h1, h2, hkk]
  · rw [if_neg hany, List.find?_append]
    by_cases hkk : key = key'
    · subst hkk
      have hf : bb.find? (fun e => decide (e.1 = key)) = none := by
        rw [List.find?_eq_none]
        intro e he
        simp only [decide_eq_true_eq]
        intro hek
        exact hany (List.any_eq_true.mpr ⟨e, he, by simp [hek]⟩)
      rw [hf]
      simp
    · rcases hf : bb.find? (fun e => decide (e.1 = key)) with _ | e <;>
        simp [hkk, Ne.symm hkk]

theorem bucketAdd_fst_nodup (bb : Banding) (key : Nat × List Nat)
    (fid : Fid) (h : (bb.map Prod.fst).Nodup) :
    ((bucketAdd bb key fid).map Prod.fst).Nodup := by
  unfold bucketAdd
  by_cases hany : bb.any (fun e => decide (e.1 = key)) = true
  · rw [if_pos hany, List.map_map]
    have hpred : (Prod.fst ∘ (fun e : (Nat × List Nat) × List Fid =>
        if e.1 = key then (e.1, e.2 ++ [fid]) else e)) = Prod.fst := by
      funext e
      by_cases he : e.1 = key <;> simp [he]
    rw [hpred]
    exact h
  · rw [if_neg hany, List.map_append]
    refine List.Nodup.append h (by simp) ?_
    intro a ha hamem
    simp at hamem
    subst hamem
    rcases List.mem_map.mp ha with ⟨e, he, hek⟩
    exact hany (List.any_eq_true.mpr ⟨e, he, by simp [hek]⟩)

theorem bucketFold_lookup (fid : Fid) (key : Nat × List Nat) :
    ∀ (l : List (Nat × List Nat)) (bb : Banding), (l.map Prod.fst).Nodup →
      bucketsOf (l.foldl (fun bb2 p => bucketAdd bb2 (p.1, p.2) fid) bb)
          key =
        bucketsOf bb key ++ (if key ∈ l then [fid] else []) := by
  intro l
  induction l with
  | nil => intro bb _; simp
  | cons p l ih =>
    intro bb hnd
    rw [List.map_cons] at hnd
    rw [List.foldl_cons, ih _ (List.nodup_cons.mp hnd).2, bucketAdd_lookup]
    have hpe : ((p.1, p.2) : Nat × List Nat) = p := rfl
    rw [hpe]
    by_cases hkp : key = p
    · subst hkp
      have hnin : key ∉ l := by
        intro hin
        exact (List.nodup_cons.mp hnd).1
          (List.mem_map.mpr ⟨key, hin, rfl⟩)
      simp [hnin]
    · simp [hkp, List.mem_cons]

theorem bucketFold_fst_nodup (fid : Fid) :
    ∀ (l : List (Nat × List Nat)) (bb : Banding), (bb.map Prod.fst).Nodup →
      (((l.foldl (fun bb2 p => bucketAdd bb2 (p.1, p.2) fid) bb)).map
        Prod.fst).Nodup := by
  intro l
  induction l with
  | nil => intro bb h; exact h
  | cons p l ih =>
    intro bb h
    rw [List.foldl_cons]
    exact ih _ (bucketAdd_fst_nodup bb (p.1, p.2) fid h)

theorem bandStep_none (b : Nat) :
    ∀ S : SigStore, S.foldl (bandStep b) none = none := by
  intro S
  induction S with
  | nil => rfl
  | cons e S ih => rw [List.foldl_cons]; exact ih

theorem create_band_buckets_char (b : Nat) :
    ∀ (S : SigStore) (acc : Banding) (B : Banding),
      S.foldl (bandStep b) (some acc) = some B →
      ∀ key, bucketsOf B key = bucketsOf acc key ++
        ((S.filter (fun e => inBand b e.2.signature key)).map Prod.fst) := by
  intro S
  induction S with
  | nil =>
    intro acc B h key
    simp at h
    rw [← h]
    simp
  | cons e S ih =>
    intro acc B h key
    rw [List.foldl_cons] at h
    rcases hsv : split_vector e.2.signature b with _ | bands
    · have hstep : bandStep b (some acc) e = none := by
        unfold bandStep
        rw [hsv]
      rw [hstep, bandStep_none] at h
      exact absurd h (by simp)
    · have hstep : bandStep b (some acc) e = some
          (bands.enum.foldl (fun bb2 p => bucketAdd bb2 (p.1, p.2) e.1)
            acc) := by
        unfold bandStep
        rw [hsv]
      rw [hstep] at h
      have hnd : (bands.enum.map Prod.fst).Nodup := by
        rw [List.enum_map_fst]
        exact List.nodup_range _
      have hstep := ih _ B h key
      rw [hstep, bucketFold_lookup e.1 key bands.enum _ hnd]
      have hin : inBand b e.2.signature key =
          decide (bands.get? key.1 = some key.2) := by
        unfold inBand
        rw [hsv]
      rw [List.filter_cons]
      by_cases hband : key ∈ bands.enum
      · have hget : bands.get? key.1 = some key.2 :=
          List.mem_enum_iff_get?.mp hband
        have hget2 : bands[key.1]? = some key.2 := by
          rw [← List.get?_eq_getElem?]
          exact hget
        rw [if_pos hband]
        simp [hin, hget, hget2, List.append_assoc]
      · have hget : ¬(bands.get? key.1 = some key.2) := by
          intro hg
          exact hband (List.mem_enum_iff_get?.mpr hg)
        have hget2 : ¬(bands[key.1]? = some key.2) := by
          rw [← List.get?_eq_getElem?]
          exact hget
        rw [if_neg hband]
        simp [hin, hget, hget2]

theorem create_band_buckets_lookup (S : SigStore) (b : Nat) (B : Banding)
    (h : create_band_buckets S b = some B) (key : Nat × List Nat) :
    bucketsOf B key =
      (S.filter (fun e => inBand b e.2.signature key)).map Prod.fst := by
  unfold create_band_buckets at h
  have h2 := create_band_buckets_char b S [] B h key
  simpa [bucketsOf] using h2

theorem create_band_buckets_fst_nodup (S : SigStore) (b : Nat)
    (B : Banding) (h : create_band_buckets S b = some B) :
    (B.map Prod.fst).Nodup := by
  unfold create_band_buckets at h
  suffices hgen : ∀ (S : SigStore) (acc : Banding),
      (acc.map Prod.fst).Nodup → S.foldl (bandStep b) (some acc) = some B →
      (B.map Prod.fst).Nodup by
    exact hgen S [] (by simp) h
  intro S
  induction S with
  | nil =>
    intro acc hacc h2
    simp at h2
    exact h2 ▸ hacc
  | cons e S ih =>
    intro acc hacc h2
    rw [List.foldl_cons] at h2
    rcases hsv : split_vector e.2.signature b with _ | bands
    · have hstep : bandStep b (some acc) e = none := by
        unfold bandStep
        rw [hsv]
      rw [hstep, bandStep_none] at h2
      exact absurd h2 (by simp)
    · have hstep : bandStep b (some acc) e = some
          (bands.enum.foldl (fun bb2 p => bucketAdd bb2 (p.1, p.2) e.1)
            acc) := by
        unfold bandStep
        rw [hsv]
      rw [hstep] at h2
      exact ih _ (bucketFold_fst_nodup e.1 bands.enum acc hacc) h2

theorem mem_storeFind_iff (S : SigStore) (hnd : (S.map Prod.fst).Nodup)
    (k : Fid) (r : SigRecord) : (k, r) ∈ S ↔ storeFind S k = some r := by
  constructor
  · intro hmem
    rcases List.mem_iff_get.mp hmem with ⟨n, hn⟩
    have h2 := storeFind_get S hnd n.1 n.2
    rw [Fin.eta, hn] at h2
    exact h2
  · exact storeFind_eq_some_mem

theorem bucketsOf_nodup (S : SigStore) (hnd : (S.map Prod.fst).Nodup)
    (b : Nat) (B : Banding) (h : create_band_buckets S b = some B)
    (key : Nat × List Nat) : (bucketsOf B key).Nodup := by
  rw [create_band_buckets_lookup S b B h key]
  have hsub : ((S.filter (fun e => inBand b e.2.signature key)).map
      Prod.fst).Sublist (S.map Prod.fst) := (List.filter_sublist S).map _
  exact List.Nodup.sublist hsub hnd

theorem mem_bucketsOf_iff (S : SigStore) (hnd : (S.map Prod.fst).Nodup)
    (b : Nat) (B : Banding) (h : create_band_buckets S b = some B)
    (key : Nat × List Nat) (fid : Fid) :
    fid ∈ bucketsOf B key ↔
      ∃ rec, storeFind S fid = some rec ∧
        inBand b rec.signature key = true := by
  rw [create_band_buckets_lookup S b B h key]
  constructor
  · intro hmem
    rcases List.mem_map.mp hmem with ⟨e, he, rfl⟩
    rcases List.mem_filter.mp he with ⟨heS, hband⟩
    refine ⟨e.2, ?_, hband⟩
    exact (mem_storeFind_iff S hnd e.1 e.2).mp (by simpa using heS)
  · rintro ⟨rec, hfind, hband⟩
    have hmem := (mem_storeFind_iff S hnd fid rec).mpr hfind
    exact List.mem_map.mpr ⟨(fid, rec),
      List.mem_filter.mpr ⟨hmem, hband⟩, rfl⟩

theorem banding_mem_bucketsOf (B : Banding)
    (hnd : (B.map Prod.fst).Nodup) {e : (Nat × List Nat) × List Fid}
    (he : e ∈ B) : bucketsOf B e.1 = e.2 := by
  rcases List.mem_iff_get.mp he with ⟨n, hn⟩
  have h2 := find_of_nodup_keys B Prod.fst hnd n.1 n.2
  rw [Fin.eta, hn] at h2
  unfold bucketsOf
  rw [h2]
  rfl

/-! ### The candidate set -/

theorem mem_pairsWith (x : Fid) :
    ∀ (l : List Fid) (p : Fid × Fid),
      p ∈ pairsWith x l ↔ ∃ y ∈ l, p = (x, y) ∨ p = (y, x) := by
  intro l
  induction l with
  | nil => intro p; simp [pairsWith]
  | cons y ys ih =>
    intro p
    unfold pairsWith
    rw [List.mem_cons, List.mem_cons, ih]
    constructor
    · rintro (rfl | rfl | ⟨z, hz, hpz⟩)
      · exact ⟨y, by simp, Or.inl rfl⟩
      · exact ⟨y, by simp, Or.inr rfl⟩
      · exact ⟨z, by simp [hz], hpz⟩
    · rintro ⟨z, hz, hpz⟩
      rcases List.mem_cons.mp hz with rfl | hz2
      · rcases hpz with rfl | rfl
        · exact Or.inl rfl
        · exact Or.inr (Or.inl rfl)
      · exact Or.inr (Or.inr ⟨z, hz2, hpz⟩)

theorem mem_orderedPairs_nodup :
    ∀ (l : List Fid), l.Nodup → ∀ (a b : Fid),
      ((a, b) ∈ orderedPairs l ↔ a ∈ l ∧ b ∈ l ∧ a ≠ b) := by
  intro l
  induction l with
  | nil => intro _ a b; simp [orderedPairs]
  | cons x xs ih =>
    intro hnd a b
    have hx : x ∉ xs := (List.nodup_cons.mp hnd).1
    unfold orderedPairs
    rw [List.mem_append, mem_pairsWith, ih (List.nodup_cons.mp hnd).2]
    constructor
    · rintro (⟨y, hy, hp | hp⟩ | ⟨ha, hb, hab⟩)
      · rcases Prod.mk.injEq .. ▸ hp with ⟨rfl, rfl⟩
        exact ⟨by simp, by simp [hy], fun h => hx (h ▸ hy)⟩
      · rcases Prod.mk.injEq .. ▸ hp with ⟨rfl, rfl⟩
        exact ⟨by simp [hy], by simp, fun h => hx (h ▸ hy)⟩
      · exact ⟨by simp [ha], by simp [hb], hab⟩
    · rintro ⟨ha, hb, hab⟩
      rcases List.mem_cons.mp ha with rfl | ha2
      · have hb2 : b ∈ xs := by
          rcases List.mem_cons.mp hb with rfl | hb2
          · exact absurd rfl hab
          · exact hb2
        exact Or.inl ⟨b, hb2, Or.inl rfl⟩
      · rcases List.mem_cons.mp hb with rfl | hb2
        · exact Or.inl ⟨a, ha2, Or.inr rfl⟩
        · exact Or.inr ⟨ha2, hb2, hab⟩

theorem candidateStep_mem (cands : List (Fid × Fid)) (fids : List Fid)
    (p : Fid × Fid) :
    p ∈ candidateStep cands fids ↔
      p ∈ cands ∨ (1 < fids.length ∧ p ∈ orderedPairs fids) := by
  unfold candidateStep
  by_cases h : 1 < fids.length
  · rw [if_pos h, mem_foldl_setInsert]
    tauto
  · rw [if_neg h]
    tauto

theorem mem_candidates_fold :
    ∀ (B : Banding) (acc : List (Fid × Fid)) (p : Fid × Fid),
      p ∈ B.foldl (fun cands e => candidateStep cands e.2) acc ↔
        p ∈ acc ∨ ∃ e ∈ B, 1 < e.2.length ∧ p ∈ orderedPairs e.2 := by
  intro B
  induction B with
  | nil => intro acc p; simp
  | cons e B ih =>
    intro acc p
    rw [List.foldl_cons, ih, candidateStep_mem]
    constructor
    · rintro ((hc | ⟨hl, hp⟩) | ⟨e2, he2, h2⟩)
      · exact Or.inl hc
      · exact Or.inr ⟨e, by simp, hl, hp⟩
      · exact Or.inr ⟨e2, by simp [he2], h2⟩
    · rintro (hc | ⟨e2, he2, h2⟩)
      · exact Or.inl (Or.inl hc)
      · rcases List.mem_cons.mp he2 with rfl | he3
        · exact Or.inl (Or.inr h2)
        · exact Or.inr ⟨e2, he3, h2⟩

theorem candidateStep_nodup (cands : List (Fid × Fid)) (fids : List Fid)
    (h : cands.Nodup) : (candidateStep cands fids).Nodup := by
  unfold candidateStep
  by_cases hl : 1 < fids.length
  · rw [if_pos hl]
    exact nodup_foldl_setInsert _ _ h
  · rw [if_neg hl]
    exact h

theorem findCandidates_nodup (B : Banding) : (findCandidates B).Nodup := by
  unfold findCandidates
  suffices hgen : ∀ (B : Banding) (acc : List (Fid × Fid)), acc.Nodup →
      (B.foldl (fun cands e => candidateStep cands e.2) acc).Nodup by
    exact hgen B [] (by simp)
  intro B2
  induction B2 with
  | nil => intro acc h; exact h
  | cons e B2 ih =>
    intro acc h
    rw [List.foldl_cons]
    exact ih _ (candidateStep_nodup acc e.2 h)

theorem one_lt_length_of_two_mem {l : List Fid} {a b : Fid} (ha : a ∈ l)
    (hb : b ∈ l) (hab : a ≠ b) : 1 < l.length := by
  cases l with
  | nil => simp at ha
  | cons x xs =>
    cases xs with
    | nil =>
      simp at ha hb
      exact absurd (ha.trans hb.symm) hab
    | cons y ys => simp

theorem sharesBucketB_iff (B : Banding) (x y : Fid) :
    sharesBucketB B x y = true ↔ ∃ e ∈ B, x ∈ e.2 ∧ y ∈ e.2 := by
  unfold sharesBucketB
  rw [List.any_eq_true]
  simp

/-- Membership in the candidate set is exactly: two distinct ids
sharing at least one band bucket. -/
theorem mem_candidates_iff (S : SigStore) (hndS : (S.map Prod.fst).Nodup)
    (b : Nat) (B : Banding) (hB : create_band_buckets S b = some B)
    (x y : Fid) :
    (x, y) ∈ findCandidates B ↔
      x ≠ y ∧ sharesBucketB B x y = true := by
  unfold findCandidates
  rw [mem_candidates_fold, sharesBucketB_iff]
  have hndB := create_band_buckets_fst_nodup S b B hB
  constructor
  · rintro (hacc | ⟨e, heB, hlen, hmemOP⟩)
    · simp at hacc
    · have hbuck := banding_mem_bucketsOf B hndB heB
      have hbnodup : e.2.Nodup := by
        rw [← hbuck]
        exact bucketsOf_nodup S hndS b B hB e.1
      rcases (mem_orderedPairs_nodup e.2 hbnodup x y).mp hmemOP with
        ⟨hx, hy, hne⟩
      exact ⟨hne, e, heB, hx, hy⟩
  · rintro ⟨hne, e, heB, hx, hy⟩
    have hbuck := banding_mem_bucketsOf B hndB heB
    have hbnodup : e.2.Nodup := by
      rw [← hbuck]
      exact bucketsOf_nodup S hndS b B hB e.1
    exact Or.inr ⟨e, heB, one_lt_length_of_two_mem hx hy hne,
      (mem_orderedPairs_nodup e.2 hbnodup x y).mpr ⟨hx, hy, hne⟩⟩

/-! ### Key distinctness of the full store -/

theorem buildFileSignatures_map_fst (simap : Line → Option Nat)
    (hfs : List (List Nat)) (f : FileKey) (fd : FileData) :
    (buildFileSignatures simap hfs f fd).map Prod.fst =
      ((signedEnum fd.code).map Prod.fst).map (fun i => ((f, i) : Fid)) := by
  rw [buildFileSignatures_eq, List.map_map, List.map_map]
  rfl

theorem lshSignatures_fst_nodup (hfs : List (List Nat)) (fm : FileMapping)
    (hnd : (fm.map Prod.fst).Nodup) :
    ((lshSignatures hfs fm).map Prod.fst).Nodup := by
  rw [lshSignatures_map_fst]
  generalize lookupIdx (buildShingleList fm) = simap
  induction fm with
  | nil => simp
  | cons kv fm ih =>
    rw [List.map_cons] at hnd
    rw [List.map_cons, List.flatten_cons, List.map_append]
    refine List.Nodup.append ?_ (ih (List.nodup_cons.mp hnd).2) ?_
    · rw [buildFileSignatures_map_fst]
      exact List.Nodup.map (fun a b h => by simpa using h)
        (signedEnum_fst_nodup kv.2.code)
    · intro k hk1 hk2
      have hfst1 : k.1 = kv.1 := by
        rw [buildFileSignatures_map_fst] at hk1
        rcases List.mem_map.mp hk1 with ⟨i, _, rfl⟩
        rfl
      have hfst2 : k.1 ∈ fm.map Prod.fst := by
        rcases List.mem_map.mp hk2 with ⟨e, he, rfl⟩
        rcases List.mem_flatten.mp he with ⟨L, hL, heL⟩
        rcases List.mem_map.mp hL with ⟨kv2, hkv2, rfl⟩
        have hkey : e.1.1 = kv2.1 := by
          have hmm : e.1 ∈ (buildFileSignatures simap hfs kv2.1
              kv2.2).map Prod.fst := List.mem_map.mpr ⟨e, heL, rfl⟩
          rw [buildFileSignatures_map_fst] at hmm
          rcases List.mem_map.mp hmm with ⟨i, _, hi⟩
          rw [← hi]
        rw [hkey]
        exact List.mem_map.mpr ⟨kv2, hkv2, rfl⟩
      exact (List.nodup_cons.mp hnd).1 (hfst1 ▸ hfst2)

/-! ### The adjacency map -/

theorem adjFind_ensure (adj : Adj) (x z : Fid) :
    (adjFind (adjEnsureKey adj x) z).getD [] = (adjFind adj z).getD [] := by
  unfold adjEnsureKey
  by_cases h : adj.any (fun e => decide (e.1 = x))
  · rw [if_pos h]
  · rw [if_neg h]
    unfold adjFind
    rw [List.find?_append]
    rcases hf : adj.find? (fun e => decide (e.1 = z)) with _ | e
    · rw [hf]
      by_cases hzx : z = x
      · subst hzx
        simp
      · rw [List.find?_cons_of_neg _ (by simpa using Ne.symm hzx)]
        simp
    · rw [hf]
      simp

theorem adjFind_ensure_self (adj : Adj) (x : Fid) :
    (adjFind (adjEnsureKey adj x) x).isSome = true := by
  unfold adjEnsureKey
  by_cases h : adj.any (fun e => decide (e.1 = x))
  · rw [if_pos h]
    rcases List.any_eq_true.mp h with ⟨e, he, hpe⟩
    unfold adjFind
    rcases hf : adj.find? (fun e => decide (e.1 = x)) with _ | e2
    · have h2 := List.find?_eq_none.mp hf e he
      exact absurd hpe h2
    · rw [hf]
      simp
  · rw [if_neg h]
    unfold adjFind
    rw [List.find?_append]
    rcases hf : adj.find? (fun e => decide (e.1 = x)) with _ | e <;> rw [hf]
    · rw [List.find?_cons_of_pos _ (by simp)]
      simp
    · simp

theorem adjFind_ensure_isSome (adj : Adj) (x z : Fid)
    (h : (adjFind adj z).isSome = true) :
    (adjFind (adjEnsureKey adj x) z).isSome = true := by
  unfold adjEnsureKey
  by_cases hx : adj.any (fun e => decide (e.1 = x))
  · rw [if_pos hx]
    exact h
  · rw [if_neg hx]
    unfold adjFind at h ⊢
    rw [List.find?_append]
    rcases hf : adj.find? (fun e => decide (e.1 = z)) with _ | e
    · rw [hf] at h
      simp at h
    · rw [hf]
      simp

theorem adjFind_appendNeighbor (x y : Fid) :
    ∀ (adj : Adj) (z : Fid), adjFind (adjAppendNeighbor adj x y) z =
      (adjFind adj z).map (fun l => if z = x then l ++ [y] else l) := by
  intro adj
  induction adj with
  | nil => intro z; rfl
  | cons e adj ih =>
    intro z
    show adjFind ((if e.1 = x then (e.1, e.2 ++ [y]) else e) ::
      adjAppendNeighbor adj x y) z = _
    have hfst : (if e.1 = x then (e.1, e.2 ++ [y]) else e).1 = e.1 := by
      by_cases hex : e.1 = x <;> simp [hex]
    by_cases hez : e.1 = z
    · subst hez
      unfold adjFind
      rw [List.find?_cons_of_pos _ (by simp [hfst]),
        List.find?_cons_of_pos _ (by simp)]
      by_cases hex : e.1 = x <;> simp [hex]
    · unfold adjFind
      rw [List.find?_cons_of_neg _ (by simp [hfst, hez]),
        List.find?_cons_of_neg _ (by simp [hez])]
      exact ih z

theorem adjFind_addEdge (adj : Adj) (a b z : Fid) :
    (adjFind (adjAddEdge adj a b) z).getD [] =
      (adjFind adj z).getD [] ++ (if z = a then [b] else []) ++
        (if z = b then [a] else []) := by
  unfold adjAddEdge
  rw [adjFind_appendNeighbor, adjFind_appendNeighbor]
  rcases hf : adjFind (adjEnsureKey (adjEnsureKey adj a) b) z with _ | l
  · have hza : z ≠ a := by
      intro h2
      subst h2
      have h1 := adjFind_ensure_self adj z
      have h2 := adjFind_ensure_isSome (adjEnsureKey adj z) b z h1
      rw [hf] at h2
      simp at h2
    have hzb : z ≠ b := by
      intro h2
      subst h2
      have h1 := adjFind_ensure_self (adjEnsureKey adj a) z
      rw [hf] at h1
      simp at h1
    have hbase : (adjFind adj z).getD [] = [] := by
      have h1 := adjFind_ensure (adjEnsureKey adj a) b z
      have h2 := adjFind_ensure adj a z
      rw [hf] at h1
      rw [← h2, ← h1]
      rfl
    rw [hbase]
    simp [hza, hzb]
  · have hl : l = (adjFind adj z).getD [] := by
      have h1 := adjFind_ensure (adjEnsureKey adj a) b z
      have h2 := adjFind_ensure adj a z
      rw [hf] at h1
      rw [← h2, ← h1]
      rfl
    rw [Option.map_some', Option.map_some', Option.getD_some, hl]
    split_ifs <;> simp [List.append_assoc]

theorem adjStep_none (sigs : SigStore) (t : ℚ) (p : Fid × Fid) :
    adjStep sigs t none p = none := rfl

theorem foldl_adjStep_none (sigs : SigStore) (t : ℚ) :
    ∀ cands : List (Fid × Fid), cands.foldl (adjStep sigs t) none = none := by
  intro cands
  induction cands with
  | nil => rfl
  | cons p cands ih =>
    rw [List.foldl_cons, adjStep_none]
    exact ih

theorem adjStep_char (sigs : SigStore) (t : ℚ) (adj : Adj) (p : Fid × Fid)
    (adj2 : Adj) (h : adjStep sigs t (some adj) p = some adj2) :
    adj2 = if qualifiedPair sigs t p = true then adjAddEdge adj p.1 p.2
      else adj := by
  unfold adjStep at h
  dsimp only at h
  split at h
  next r1 r2 heq1 heq2 =>
    split at h
    next q heq3 =>
      have hqp : qualifiedPair sigs t p = decide (t < q) := by
        unfold qualifiedPair
        rw [heq1, heq2]
        dsimp only
        rw [heq3]
      rw [hqp]
      by_cases h4 : t < q
      · rw [if_pos h4] at h
        rw [if_pos (by simp [h4])]
        exact (Option.some.injEq _ _ ▸ h).symm
      · rw [if_neg h4] at h
        rw [if_neg (by simp [h4])]
        exact (Option.some.injEq _ _ ▸ h).symm
    next heq3 => exact absurd h (by simp)
  next h1 h2 => exact absurd h (by simp)

theorem buildAdjacency_count (sigs : SigStore) (t : ℚ) (z y : Fid)
    (hzy : z ≠ y) :
    ∀ (cands : List (Fid × Fid)) (acc adj : Adj),
      cands.foldl (adjStep sigs t) (some acc) = some adj →
      ((adjFind adj z).getD []).count y =
        ((adjFind acc z).getD []).count y +
          cands.countP (fun p => qualifiedPair sigs t p &&
            (decide (p = (z, y)) || decide (p = (y, z)))) := by
  intro cands
  induction cands with
  | nil =>
    intro acc adj h
    simp at h
    subst h
    simp
  | cons p cands ih =>
    intro acc adj h
    rw [List.foldl_cons] at h
    rcases hstep : adjStep sigs t (some acc) p with _ | acc2
    · rw [hstep, foldl_adjStep_none] at h
      exact absurd h (by simp)
    · rw [hstep] at h
      have hchar := adjStep_char sigs t acc p acc2 hstep
      rw [ih acc2 adj h, List.countP_cons]
      by_cases hq : qualifiedPair sigs t p = true
      · rw [if_pos hq] at hchar
        subst hchar
        rw [adjFind_addEdge, List.count_append, List.count_append]
        rcases p with ⟨a, b⟩
        simp only [hq, Bool.true_and]
        have huv : ((z, y) : Fid × Fid) ≠ (y, z) := by
          intro hc
          exact hzy (congrArg Prod.fst hc)
        have e1 : (if z = a then [b] else []).count y =
            if ((a, b) : Fid × Fid) = (z, y) then 1 else 0 := by
          by_cases h1 : z = a
          · subst h1
            rw [if_pos rfl]
            by_cases h2 : b = y
            · subst h2
              rw [if_pos rfl]
              simp
            · rw [if_neg (by simp [h2])]
              simp [List.count_cons, h2]
          · rw [if_neg h1,
              if_neg (fun hc => h1 (congrArg Prod.fst hc).symm)]
            simp
        have e2 : (if z = b then [a] else []).count y =
            if ((a, b) : Fid × Fid) = (y, z) then 1 else 0 := by
          by_cases h1 : z = b
          · subst h1
            rw [if_pos rfl]
            by_cases h2 : a = y
            · subst h2
              rw [if_pos rfl]
              simp
            · rw [if_neg (by simp [h2])]
              simp [List.count_cons, h2]
          · rw [if_neg h1,
              if_neg (fun hc => h1 (congrArg Prod.snd hc).symm)]
            simp
        rw [e1, e2]
        by_cases hA : ((a, b) : Fid × Fid) = (z, y) <;>
          by_cases hB : ((a, b) : Fid × Fid) = (y, z)
        · exact absurd (hA.symm.trans hB) huv
        · simp [hA, hB, hzy, Ne.symm hzy] <;> omega
        · simp [hA, hB, hzy, Ne.symm hzy] <;> omega
        · simp [hA, hB, hzy, Ne.symm hzy] <;> omega
      · rw [if_neg hq] at hchar
        subst hchar
        simp only [hq, Bool.false_and, if_neg]
        simp

theorem buildAdjacency_count_char (sigs : SigStore) (t : ℚ)
    (cands : List (Fid × Fid)) (adj : Adj)
    (h : buildAdjacency sigs t cands = some adj) (z y : Fid) (hzy : z ≠ y) :
    ((adjFind adj z).getD []).count y =
      cands.countP (fun p => qualifiedPair sigs t p &&
        (decide (p = (z, y)) || decide (p = (y, z)))) := by
  have h2 := buildAdjacency_count sigs t z y hzy cands [] adj h
  simpa [adjFind] using h2

theorem buildAdjacency_no_self (sigs : SigStore) (t : ℚ) :
    ∀ (cands : List (Fid × Fid)), (∀ p ∈ cands, p.1 ≠ p.2) →
      ∀ (acc adj : Adj), (∀ w : Fid, w ∉ (adjFind acc w).getD []) →
        cands.foldl (adjStep sigs t) (some acc) = some adj →
        ∀ w : Fid, w ∉ (adjFind adj w).getD [] := by
  intro cands
  induction cands with
  | nil =>
    intro _ acc adj hacc h
    simp at h
    subst h
    exact hacc
  | cons p cands ih =>
    intro hne acc adj hacc h
    rw [List.foldl_cons] at h
    rcases hstep : adjStep sigs t (some acc) p with _ | acc2
    · rw [hstep, foldl_adjStep_none] at h
      exact absurd h (by simp)
    · rw [hstep] at h
      refine ih (fun q hq => hne q (List.mem_cons_of_mem _ hq)) acc2 adj
        ?_ h
      have hchar := adjStep_char sigs t acc p acc2 hstep
      by_cases hq : qualifiedPair sigs t p = true
      · rw [if_pos hq] at hchar
        subst hchar
        intro w hw
        rw [adjFind_addEdge] at hw
        have hp := hne p (List.mem_cons_self _ _)
        rcases List.mem_append.mp hw with hw2 | hw2
        · rcases List.mem_append.mp hw2 with hw3 | hw3
          · exact hacc w hw3
          · by_cases h1 : w = p.1
            · rw [if_pos h1] at hw3
              simp at hw3
              exact hp (h1 ▸ hw3 ▸ rfl)
            · rw [if_neg h1] at hw3
              simp at hw3
        · by_cases h1 : w = p.2
          · rw [if_pos h1] at hw2
            simp at hw2
            exact hp (hw2 ▸ h1 ▸ rfl)
          · rw [if_neg h1] at hw2
            simp at hw2
      · rw [if_neg hq] at hchar
        subst hchar
        exact hacc

/-! ### Symmetry of the similarity gate -/

theorem countMatches_comm (a b : List Nat) :
    countMatches a b = countMatches b a := by
  unfold countMatches
  rw [← List.zip_swap a b, List.countP_map]
  apply List.countP_congr
  intro p _
  simp [Function.comp, eq_comm]

theorem calculate_jaccard_similarity_comm (a b : List Nat) :
    calculate_jaccard_similarity a b = calculate_jaccard_similarity b a := by
  unfold calculate_jaccard_similarity
  by_cases h : a.length = b.length
  · have h1 : ¬a.length ≠ b.length := fun hc => hc h
    have h2 : ¬b.length ≠ a.length := fun hc => hc h.symm
    rw [if_neg h1, if_neg h2, countMatches_comm, h]
  · rw [if_pos h, if_pos (Ne.symm h)]

theorem qualifiedPair_comm (sigs : SigStore) (t : ℚ) (x y : Fid) :
    qualifiedPair sigs t (y, x) = qualifiedPair sigs t (x, y) := by
  unfold qualifiedPair
  dsimp only
  rcases h1 : storeFind sigs x with _ | r1 <;>
    rcases h2 : storeFind sigs y with _ | r2 <;> dsimp only <;> try rfl
  rw [calculate_jaccard_similarity_comm]

theorem sharesBucketB_comm (B : Banding) (x y : Fid) :
    sharesBucketB B x y = sharesBucketB B y x := by
  rw [Bool.eq_iff_iff, sharesBucketB_iff, sharesBucketB_iff]
  constructor <;> rintro ⟨e, he, h1, h2⟩ <;> exact ⟨e, he, h2, h1⟩

/-! ### Counting a pair and its mirror in a duplicate-free list -/

theorem countP_pair_nodup {α : Type} [DecidableEq α] (c : α → Bool)
    (u v : α) (huv : u ≠ v) :
    ∀ l : List α, l.Nodup →
      l.countP (fun p => c p && (decide (p = u) || decide (p = v))) =
        (if u ∈ l ∧ c u = true then 1 else 0) +
          (if v ∈ l ∧ c v = true then 1 else 0) := by
  intro l
  induction l with
  | nil => intro _; simp
  | cons x l ih =>
    intro hnd
    rw [List.countP_cons, ih (List.nodup_cons.mp hnd).2]
    have hx := (List.nodup_cons.mp hnd).1
    by_cases hxu : x = u
    · subst hxu
      have hvx : ¬v = x := fun h2 => huv h2.symm
      simp [hx, huv, hvx, List.mem_cons]
      omega
    · by_cases hxv : x = v
      · subst hxv
        have hux : ¬u = x := fun h2 => hxu h2.symm
        simp [hx, huv, hux, List.mem_cons]
      · have hux : ¬u = x := fun h2 => hxu h2.symm
        have hvx : ¬v = x := fun h2 => hxv h2.symm
        simp [hxu, hxv, hux, hvx, List.mem_cons]

/-! ### Inversion of `lsh` -/

theorem lsh_inv (hfs : List (List Nat)) (fm : FileMapping) (t : ℚ)
    (sigs : SigStore) (adj : Adj) (h : lsh hfs fm t = some (sigs, adj)) :
    sigs = lshSignatures hfs fm ∧
      ∃ B, create_band_buckets (lshSignatures hfs fm) 10 = some B ∧
        buildAdjacency (lshSignatures hfs fm) t (findCandidates B) =
          some adj := by
  unfold lsh at h
  dsimp only at h
  split at h
  · exact absurd h (by simp)
  next B hB =>
    split at h
    next adj2 hadj =>
      rcases Option.some.injEq _ _ ▸ h with h2
      have h3 : lshSignatures hfs fm = sigs ∧ adj2 = adj :=
        Prod.mk.injEq _ _ _ _ ▸ h2
      refine ⟨h3.1.symm, B, hB, ?_⟩
      rw [h3.2] at hadj
      exact hadj
    next => exact absurd h (by simp)

/-! ## Claim theorems -/

/-- C3. Counterexample: on `c3Demo` the interior line of the
triple-double-quote docstring block, `doc`, appears in the returned
`code_lines` (with its line number 2 in the mapping), so the normalizer
does not discard every line of a `\x22\x22\x22`-delimited docstring
block, contradicting the claim that a leading triple-quote sequence
toggles the flag and that all lines while the flag is true are absent. -/
theorem normalize_keeps_double_quote_docstring_interior :
    normalize_lines c3Demo =
      ([['d', 'o', 'c', '\n'], ['x', ' ', '=', ' ', '1', '\n']], [2, 4]) := by
  decide

/-- C3 (amended). The normalizer discards comment lines (leading `#` or
`\x22\x22\x22`) individually without toggling any flag, and the
docstring flag instead toggles on lines whose leading non-whitespace
begins with a single quote; while that flag is on, lines surviving the
import/comment/decorator/blank filters are discarded, including both
toggling lines.  Formally: `normalize_lines` agrees with the reference
recursion `singleQuoteBlockNormalize` on every input file. -/
theorem normalize_lines_eq_singleQuoteBlockNormalize (lines : List Line) :
    normalize_lines lines = singleQuoteBlockNormalize lines := by
  have h := normalize_foldl_eq_walk lines false 0 [] []
  simpa [normalize_lines, singleQuoteBlockNormalize] using h

/-- C5. Counterexample: the line `aaaaaa` has length 6 > 5, but its
shingle set has a single element (both length-5 windows are `aaaaa`),
not `6 - 5 + 1 = 2`, so `generate_shingle_set` does not always return
exactly `len(L) - k + 1` shingles for `len(L) > k`. -/
theorem generate_shingle_set_card_ne_windows :
    (generate_shingle_set (List.replicate 6 'a') 5).map List.length ≠
      some 2 := by
  decide

/-- C5 (amended). With shingle size k = 5, `generate_shingle_set`
returns no shingles when `len(L) ≤ 5`; when `len(L) > 5` it returns a
nonempty duplicate-free set of at most `len(L) - 5 + 1` shingles
(exactly that many only when all length-5 windows are distinct). -/
theorem generate_shingle_set_count (L : Line) :
    (L.length ≤ 5 → generate_shingle_set L 5 = none) ∧
    (5 < L.length → ∃ s, generate_shingle_set L 5 = some s ∧
      s.Nodup ∧ 0 < s.length ∧ s.length ≤ L.length - 5 + 1) := by
  constructor
  · intro h
    unfold generate_shingle_set
    rw [if_neg (by omega)]
  · intro h
    unfold generate_shingle_set
    rw [if_pos h]
    refine ⟨_, rfl, nodup_foldl_setInsert _ _ (List.nodup_nil), ?_, ?_⟩
    · rcases hw : (List.range (L.length - 5 + 1)).map
          (fun idx => (L.drop idx).take 5) with _ | ⟨w, ws⟩
      · exfalso
        have hlen := congrArg List.length hw
        simp only [List.length_map, List.length_range, List.length_nil]
          at hlen
        omega
      · simp only [List.foldl_cons]
        have hset : setInsert ([] : List Line) w = [w] := by
          simp [setInsert]
        rw [hset]
        have := le_length_foldl_setInsert ws [w]
        simpa using lt_of_lt_of_le (by norm_num) this
    · have := length_foldl_setInsert_le
        ((List.range (L.length - 5 + 1)).map
          (fun idx => (L.drop idx).take 5)) []
      simpa using this

/-- C5 witness: evaluation of the amended claim at the concrete lines
`ab` (too short) and `abcdefg` (length 7). -/
theorem generate_shingle_set_count_witness :
    generate_shingle_set ['a', 'b'] 5 = none ∧
      ∃ s, generate_shingle_set ['a', 'b', 'c', 'd', 'e', 'f', 'g'] 5 =
          some s ∧ s.Nodup ∧ 0 < s.length ∧
          s.length ≤ ['a', 'b', 'c', 'd', 'e', 'f', 'g'].length - 5 + 1 :=
  ⟨(generate_shingle_set_count ['a', 'b']).1 (by decide),
   (generate_shingle_set_count ['a', 'b', 'c', 'd', 'e', 'f', 'g']).2
     (by decide)⟩

/-- C6. Counterexample: on two empty signatures the lengths agree and
`len(sig1)` is 0, so `matches / len(sig1)` raises `ZeroDivisionError`
(modelled as `none`): the function is not total on all signature pairs
and `sim(a,a) = 1` fails at `a = []`. -/
theorem calculate_jaccard_similarity_nil_nil_raises :
    calculate_jaccard_similarity [] [] = none := by
  decide

/-- C6 (amended). Whenever `a` and `b` are not both empty,
`calculate_jaccard_similarity a b` returns a value in [0, 1]; and for
every nonempty `a`, `calculate_jaccard_similarity a a = 1`. -/
theorem calculate_jaccard_similarity_range (a b : List Nat) :
    (¬(a = [] ∧ b = []) →
      ∃ q, calculate_jaccard_similarity a b = some q ∧ 0 ≤ q ∧ q ≤ 1) ∧
    (a ≠ [] → calculate_jaccard_similarity a a = some 1) := by
  constructor
  · intro hne
    unfold calculate_jaccard_similarity
    by_cases hlen : a.length = b.length
    · have ha : a.length ≠ 0 := by
        intro h0
        exact hne ⟨List.eq_nil_of_length_eq_zero h0,
          List.eq_nil_of_length_eq_zero (hlen ▸ h0)⟩
      rw [if_neg (by omega), if_neg ha]
      refine ⟨_, rfl, ?_, ?_⟩
      · rw [Rat.mkRat_eq_div]
        positivity
      · rw [Rat.mkRat_eq_div, div_le_one (by positivity)]
        exact_mod_cast countMatches_le_length a b
    · rw [if_pos hlen]
      exact ⟨0, rfl, le_refl 0, by norm_num⟩
  · intro hne
    unfold calculate_jaccard_similarity
    have ha : a.length ≠ 0 := fun h0 =>
      hne (List.eq_nil_of_length_eq_zero h0)
    rw [if_neg (by omega), if_neg ha]
    rw [countMatches_self, Rat.mkRat_eq_div]
    congr 1
    field_simp

/-- C6 witness: evaluation of the amended claim at `a = [0]`,
`b = [1]`. -/
theorem calculate_jaccard_similarity_range_witness :
    (∃ q, calculate_jaccard_similarity [0] [1] = some q ∧ 0 ≤ q ∧ q ≤ 1) ∧
      calculate_jaccard_similarity [0] [0] = some 1 :=
  ⟨(calculate_jaccard_similarity_range [0] [1]).1 (by simp),
   (calculate_jaccard_similarity_range [0] [0]).2 (by simp)⟩

/-- C1. The caller (server.py line 307) passes
`region_threshold = -region_length`; with `region_length = 1` the
single successfully expanded region in `c1Out` has length 2 and
qualifies, yet `find_similiar_regions` returns the empty list: after
the only element is popped, the loop condition `max_heap` is falsy, so
the popped top — here the longest (and only) region — is never
appended to the result (and the strict `<` against the negated
threshold would additionally drop regions of length exactly
`region_length`).  The claim describes the intended output; the code
drops qualifying regions. -/
theorem find_similiar_regions_drops_longest :
    ((expand_similiarity_region c1Out.1 (['a'], 0) (['b'], 0) (mkRat 4 5)
        [] 100).map (fun p => p.1.map Region.total_lines)) =
      some (some 2) ∧
    find_similiar_regions c1Out.1 c1Out.2 (-1) (mkRat 4 5) 100 =
      some [] := by
  exact ⟨by decide, by rfl⟩

/-- C9. On a signature store built by `lsh` (distinct file keys, at
least one hash function), for every seed pair present in the store both
growth loops of `expand_similiarity_region` terminate cleanly: the
upward loop exits within `line_number(x) + 1` iterations (prev links
strictly decrease the per-file line index), and the downward loop
exits within `len(code) - line_number(x)` iterations of the seed's
file, for any accumulator state. -/
theorem expand_growth_loops_terminate (hfs : List (List Nat))
    (fm : FileMapping) (hnd : (fm.map Prod.fst).Nodup) (hhfs : hfs ≠ [])
    (t : ℚ) (x y : Fid) (rx ry : SigRecord) (f : FileKey) (fd : FileData)
    (hmem : (f, fd) ∈ fm) (hxf : rx.file = f)
    (hx : storeFind (lshSignatures hfs fm) x = some rx)
    (hy : storeFind (lshSignatures hfs fm) y = some ry) :
    (∃ r, growUp (lshSignatures hfs fm) t (rx.line_number + 1) (x, y) =
      some r) ∧
    ∀ acc1 acc2 : List Fid,
      ∃ r, growDown (lshSignatures hfs fm) t
        (fd.code.length - rx.line_number) (x, y) acc1 acc2 = some r := by
  constructor
  · exact growUp_terminates hfs fm hnd hhfs t (rx.line_number + 1) x y rx ry
      hx hy (by omega)
  · intro acc1 acc2
    exact growDown_terminates hfs fm hnd hhfs t
      (fd.code.length - rx.line_number) x y rx ry f fd acc1 acc2 hmem hxf
      hx hy (le_refl _)

/-- C9 witness: both loops exit on the two-line one-file store
`c8Store`, seeded at its two signed lines. -/
theorem expand_growth_loops_terminate_witness :
    (growUp (lshSignatures c8Hfs c8Fm) (mkRat 4 5) (c8rx.line_number + 1)
      ((['a'], 0), (['a'], 1))).isSome = true ∧
    (growDown (lshSignatures c8Hfs c8Fm) (mkRat 4 5)
      (({ code := [demoLineA, demoLineB],
          line_mapping := [1, 2] } : FileData).code.length -
        c8rx.line_number) ((['a'], 0), (['a'], 1)) [] []).isSome = true := by
  have h := expand_growth_loops_terminate c8Hfs c8Fm (by decide) (by decide)
    (mkRat 4 5) (['a'], 0) (['a'], 1) c8rx c8ry ['a']
    { code := [demoLineA, demoLineB], line_mapping := [1, 2] }
    (by decide) (by decide) (by decide) (by decide)
  constructor
  · rcases h.1 with ⟨r, hr⟩
    rw [hr]
    rfl
  · rcases h.2 [] [] with ⟨r, hr⟩
    rw [hr]
    rfl

/-- C10. Every region returned by `expand_similiarity_region` on a
signature store built by `lsh` (distinct file keys; each file's
`line_mapping` sorted nondecreasingly and at least as long as its
code, as the normalizer produces) is well formed:
`file1_start ≤ file1_end`, `file2_start ≤ file2_end`, and hence
`total_lines ≥ 1`. -/
theorem expand_region_wellformed (hfs : List (List Nat)) (fm : FileMapping)
    (hnd : (fm.map Prod.fst).Nodup)
    (hsort : ∀ kv ∈ fm, List.Sorted (· ≤ ·) kv.2.line_mapping)
    (hlen : ∀ kv ∈ fm, kv.2.code.length ≤ kv.2.line_mapping.length)
    (key1 key2 : Fid) (t : ℚ) (visited : List (Fid × Fid)) (fuel : Nat)
    (region : Region) (visited2 : List (Fid × Fid))
    (hexp : expand_similiarity_region (lshSignatures hfs fm) key1 key2 t
      visited fuel = some (some region, visited2)) :
    region.file1_start ≤ region.file1_end ∧
    region.file2_start ≤ region.file2_end ∧ 1 ≤ region.total_lines := by
  unfold expand_similiarity_region at hexp
  split at hexp
  case _ rk1 rk2 heq1 heq2 =>
    split at hexp
    case _ sim heqsim =>
      split at hexp
      case isTrue => exact absurd hexp (by simp)
      case isFalse hsim =>
        split at hexp
        case _ sk1 sk2 hequp =>
          split at hexp
          case _ rkf1 rkf2 heqcol =>
            split at hexp
            case _ rs1 rs2 heqs1 heqs2 =>
              split at hexp
              case _ ek1 ek2 rl1 rl2 heqdown =>
                split at hexp
                case _ re1 re2 heqe1 heqe2 =>
                  dsimp only at hexp
                  have hpair := Option.some.inj hexp
                  have hsome := congrArg Prod.fst hpair
                  have hreg := (Option.some.inj hsome).symm
                  rcases growUp_le hfs fm hnd hsort hlen t fuel key1 key2
                    sk1 sk2 rk1 rk2 heq1 heq2 hequp with
                    ⟨ru, rv, hu, hv, hule, hvle⟩
                  rcases growDown_ge hfs fm hnd hsort hlen t fuel key1 key2
                    ek1 ek2 rkf1 rkf2 rl1 rl2 rk1 rk2 heq1 heq2 heqdown with
                    ⟨ru2, rv2, hu2, hv2, hule2, hvle2⟩
                  have hrs1 : rs1 = ru := Option.some.inj (heqs1.symm.trans hu)
                  have hrs2 : rs2 = rv := Option.some.inj (heqs2.symm.trans hv)
                  have hre1 : re1 = ru2 :=
                    Option.some.inj (heqe1.symm.trans hu2)
                  have hre2 : re2 = rv2 :=
                    Option.some.inj (heqe2.symm.trans hv2)
                  have hA : rs1.original_line_number ≤
                      re1.original_line_number := by
                    rw [hrs1, hre1]
                    exact le_trans hule hule2
                  have hB : rs2.original_line_number ≤
                      re2.original_line_number := by
                    rw [hrs2, hre2]
                    exact le_trans hvle hvle2
                  rw [hreg]
                  refine ⟨hA, hB, ?_⟩
                  have h1 : (1 : Int) ≤ (re1.original_line_number : Int) -
                      (rs1.original_line_number : Int) + 1 := by omega
                  exact le_trans h1 (le_max_left _ _)
                case _ => exact absurd hexp (by simp)
              case _ => exact absurd hexp (by simp)
            case _ => exact absurd hexp (by simp)
          case _ => exact absurd hexp (by simp)
        case _ => exact absurd hexp (by simp)
    case _ => exact absurd hexp (by simp)
  case _ => exact absurd hexp (by simp)

/-- C10 witness: the concrete expansion of the cross-file seed
`(a_0, b_0)` in the two-file store of `c1Fm` yields a region with
ordered endpoints and a positive length. -/
theorem expand_region_wellformed_witness :
    c10Region.file1_start ≤ c10Region.file1_end ∧
    c10Region.file2_start ≤ c10Region.file2_end ∧
    1 ≤ c10Region.total_lines := by
  have hx : expand_similiarity_region (lshSignatures c1Hfs c1Fm) (['a'], 0)
      (['b'], 0) (mkRat 4 5) [] 100 = some (some c10Region, c10Visited) := by
    decide
  exact expand_region_wellformed c1Hfs c1Fm (by decide) (by decide)
    (by decide) (['a'], 0) (['b'], 0) (mkRat 4 5) [] 100 c10Region
    c10Visited hx

/-- C2. With an empty candidate adjacency map the main loop never runs,
`max_heap` stays empty, and `heapq.heappop(max_heap)` on line 35 raises
`IndexError` (modelled as `none`): the run does not return normally —
for every signature store, threshold and fuel. -/
theorem find_similiar_regions_empty_adj_raises (signatures : SigStore)
    (region_threshold : Int) (threshold : ℚ) (fuel : Nat) :
    find_similiar_regions signatures [] region_threshold threshold fuel =
      none := rfl

/-- C7. Counterexample to the `≥ candidate_threshold` reading: in the
`c7` demo the two ids share a band bucket and their signature Jaccard
is exactly `1/2 = candidate_threshold`, yet `lsh` at that threshold
produces an empty adjacency map — the source gate is the strict
`similarity > similiarity_threshold` of lsh.py line 96. -/
theorem lsh_candidate_edge_ge_refuted :
    c7Run = some (c7Sigs, []) ∧
    c7B.isSome = true ∧
    sharesBucketB (c7B.getD []) fidA fidB = true ∧
    c7SimAB = some (mkRat 1 2) ∧
    ¬fidB ∈ (adjFind ((c7Run.map Prod.snd).getD []) fidA).getD [] := by
  refine ⟨by rfl, by decide, by decide, by decide, by decide⟩

/-- C7 (amended). The candidate adjacency map built by `lsh` has an
edge from `x` to `y` iff `x` and `y` are distinct fingerprint ids that
land in at least one common band bucket and the Jaccard similarity of
their signatures is strictly greater than `candidate_threshold`
(hypotheses: the file keys are distinct, as Python dict keys are, and
`lsh` ran to completion). -/
theorem lsh_candidate_edge_iff (hfs : List (List Nat)) (fm : FileMapping)
    (hnd : (fm.map Prod.fst).Nodup) (t : ℚ) (sigs : SigStore) (adj : Adj)
    (B : Banding) (hlsh : lsh hfs fm t = some (sigs, adj))
    (hB : lshBanding hfs fm = some B) (x y : Fid) :
    y ∈ (adjFind adj x).getD [] ↔
      x ≠ y ∧ sharesBucketB B x y = true ∧
        qualifiedPair sigs t (x, y) = true := by
  rcases lsh_inv hfs fm t sigs adj hlsh with ⟨hsigs, B2, hB2, hadj⟩
  unfold lshBanding at hB
  rw [hB2] at hB
  have hBB : B2 = B := Option.some.injEq _ _ ▸ hB
  subst hBB
  have hndS : ((lshSignatures hfs fm).map Prod.fst).Nodup :=
    lshSignatures_fst_nodup hfs fm hnd
  subst hsigs
  have hdist : ∀ p ∈ findCandidates B2, p.1 ≠ p.2 := by
    intro p hp
    rcases p with ⟨a, b⟩
    exact ((mem_candidates_iff _ hndS 10 B2 hB2 a b).mp hp).1
  constructor
  · intro hmem
    have hxy : x ≠ y := by
      intro h2
      subst h2
      exact buildAdjacency_no_self _ t (findCandidates B2) hdist [] adj
        (by intro w; simp [adjFind]) hadj x hmem
    have huv : ((x, y) : Fid × Fid) ≠ (y, x) :=
      fun h2 => hxy (congrArg Prod.fst h2)
    have hcnt := buildAdjacency_count_char _ t (findCandidates B2) adj
      hadj x y hxy
    rw [countP_pair_nodup (qualifiedPair (lshSignatures hfs fm) t) _ _ huv
      (findCandidates B2) (findCandidates_nodup B2)] at hcnt
    by_cases hc1 : ((x, y) ∈ findCandidates B2 ∧
        qualifiedPair (lshSignatures hfs fm) t (x, y) = true)
    · rcases (mem_candidates_iff _ hndS 10 B2 hB2 x y).mp hc1.1 with
        ⟨hne, hsh⟩
      exact ⟨hne, hsh, hc1.2⟩
    · by_cases hc2 : ((y, x) ∈ findCandidates B2 ∧
          qualifiedPair (lshSignatures hfs fm) t (y, x) = true)
      · rcases (mem_candidates_iff _ hndS 10 B2 hB2 y x).mp hc2.1 with
          ⟨hne, hsh⟩
        refine ⟨Ne.symm hne, by rw [sharesBucketB_comm]; exact hsh, ?_⟩
        rw [← qualifiedPair_comm]
        exact hc2.2
      · rw [if_neg hc1, if_neg hc2] at hcnt
        simp at hcnt
        exact absurd hmem (List.count_eq_zero.mp hcnt)
  · rintro ⟨hne, hsh, hq⟩
    have huv : ((x, y) : Fid × Fid) ≠ (y, x) :=
      fun h2 => hne (congrArg Prod.fst h2)
    have hc1 : (x, y) ∈ findCandidates B2 :=
      (mem_candidates_iff _ hndS 10 B2 hB2 x y).mpr ⟨hne, hsh⟩
    have hcnt := buildAdjacency_count_char _ t (findCandidates B2) adj
      hadj x y hne
    rw [countP_pair_nodup (qualifiedPair (lshSignatures hfs fm) t) _ _ huv
      (findCandidates B2) (findCandidates_nodup B2)] at hcnt
    rw [if_pos ⟨hc1, hq⟩] at hcnt
    by_contra hmem
    rw [List.count_eq_zero_of_not_mem hmem] at hcnt
    omega

/-- C7 witness: in the `c4` demo (identical files, similarity 1 over
threshold 1/2) the forward direction of the amended claim yields
distinctness, a shared bucket and a passing gate for the demo edge. -/
theorem lsh_candidate_edge_iff_witness :
    fidA ≠ fidB ∧ sharesBucketB (c4B.getD []) fidA fidB = true ∧
      qualifiedPair c4Sigs (mkRat 1 2) (fidA, fidB) = true :=
  (lsh_candidate_edge_iff c4Hfs c4Fm (by decide) (mkRat 1 2) c4Sigs c4Adj
    (c4B.getD []) (by rfl) (by decide) fidA fidB).mp (by decide)

/-- C4. Counterexample to idempotence-as-once: in the `c4` demo the
connected id `fidB` occurs twice, not once, in `fidA`'s adjacency
list — both orientations of the candidate pair append it. -/
theorem lsh_adjacency_not_once :
    c4Run.isSome = true ∧
    fidB ∈ (adjFind c4Adj fidA).getD [] ∧
    ¬((adjFind c4Adj fidA).getD []).count fidB = 1 := by
  refine ⟨by decide, by decide, by decide⟩

/-- C4 (amended). The candidate set is deduplicated (a true set), so
each unordered qualifying pair is processed exactly once per
orientation: each connected id occurs exactly twice in the other's
adjacency list, independent of how many band buckets the pair
shares. -/
theorem lsh_adjacency_count_two (hfs : List (List Nat)) (fm : FileMapping)
    (hnd : (fm.map Prod.fst).Nodup) (t : ℚ) (sigs : SigStore) (adj : Adj)
    (hlsh : lsh hfs fm t = some (sigs, adj)) (x y : Fid)
    (hedge : y ∈ (adjFind adj x).getD []) :
    ((adjFind adj x).getD []).count y = 2 := by
  rcases lsh_inv hfs fm t sigs adj hlsh with ⟨hsigs, B, hB2, hadj⟩
  have hndS : ((lshSignatures hfs fm).map Prod.fst).Nodup :=
    lshSignatures_fst_nodup hfs fm hnd
  subst hsigs
  have hdist : ∀ p ∈ findCandidates B, p.1 ≠ p.2 := by
    intro p hp
    rcases p with ⟨a, b⟩
    exact ((mem_candidates_iff _ hndS 10 B hB2 a b).mp hp).1
  have hxy : x ≠ y := by
    intro h2
    subst h2
    exact buildAdjacency_no_self _ t (findCandidates B) hdist [] adj
      (by intro w; simp [adjFind]) hadj x hedge
  have huv : ((x, y) : Fid × Fid) ≠ (y, x) :=
    fun h2 => hxy (congrArg Prod.fst h2)
  have hcnt := buildAdjacency_count_char _ t (findCandidates B) adj
    hadj x y hxy
  rw [countP_pair_nodup (qualifiedPair (lshSignatures hfs fm) t) _ _ huv
    (findCandidates B) (findCandidates_nodup B)] at hcnt
  by_cases hc1 : ((x, y) ∈ findCandidates B ∧
      qualifiedPair (lshSignatures hfs fm) t (x, y) = true)
  · have hc2 : ((y, x) ∈ findCandidates B ∧
        qualifiedPair (lshSignatures hfs fm) t (y, x) = true) := by
      rcases (mem_candidates_iff _ hndS 10 B hB2 x y).mp hc1.1 with
        ⟨hne, hsh⟩
      refine ⟨(mem_candidates_iff _ hndS 10 B hB2 y x).mpr
        ⟨Ne.symm hne, by rw [← sharesBucketB_comm]; exact hsh⟩, ?_⟩
      rw [qualifiedPair_comm]
      exact hc1.2
    rw [if_pos hc1, if_pos hc2] at hcnt
    omega
  · by_cases hc2 : ((y, x) ∈ findCandidates B ∧
        qualifiedPair (lshSignatures hfs fm) t (y, x) = true)
    · exfalso
      apply hc1
      rcases (mem_candidates_iff _ hndS 10 B hB2 y x).mp hc2.1 with
        ⟨hne, hsh⟩
      refine ⟨(mem_candidates_iff _ hndS 10 B hB2 x y).mpr
        ⟨Ne.symm hne, by rw [sharesBucketB_comm]; exact hsh⟩, ?_⟩
      rw [← qualifiedPair_comm]
      exact hc2.2
    · rw [if_neg hc1, if_neg hc2] at hcnt
      simp at hcnt
      exact absurd hedge (List.count_eq_zero.mp hcnt)

/-- C4 witness: the amended claim evaluated on the `c4` demo edge —
the neighbor count is exactly 2. -/
theorem lsh_adjacency_count_two_witness :
    ((adjFind c4Adj fidA).getD []).count fidB = 2 :=
  lsh_adjacency_count_two c4Hfs c4Fm (by decide) (mkRat 1 2) c4Sigs c4Adj
    (by rfl) fidA fidB (by decide)
